import Mathlib

/-!
Verification development for the dominator analysis of
`libyul/backends/evm/Dominator.h` (Lengauer–Tarjan algorithm with path
compression, dominator-tree construction, and the `dominates` /
`dominatorsOf` queries).

Shallow-embedding conventions:
* the C++ template parameter `Vertex` is instantiated at `Nat`; graph
  topology is a successor function `Nat → List Nat` (the order of the
  returned list is the order in which `ForEachSuccessor` enumerates
  successors);
* the preallocated `std::vector<size_t>` members are modelled as total
  functions `Nat → Option Nat` where `none` stands for the sentinel
  `std::numeric_limits<size_t>::max()` (the vectors are initialised with
  that sentinel); `label` is initialised with `0`, so it is `Nat → Nat`;
  `m_vertices` is value-initialised, which for the `Nat` instantiation is
  `0`, so it is `Nat → Nat`;
* `std::map` is a key-sorted association list; `std::map::operator[]`
  value-initialises an absent key to `0`;
* `std::set<size_t>` is a sorted duplicate-free `List Nat`;
* the recursive lambdas `dfs` and `compressPath`, and the `while` loops of
  the queries, take an explicit fuel argument; fuel is always chosen large
  enough for the runs of interest, and the theorems either hold for every
  fuel or carry the relevant hypothesis;
* reads of a vector one past its end (which the DFS of the source can
  perform) are observable through the `accesses` trace field, which records
  the index used by the unvisited-successor test at each successor
  callback.
-/

namespace Dominator

/-- Pointwise update of a total function, modelling `vec[i] = x`. -/
def upd {α : Type} (f : Nat → α) (i : Nat) (x : α) : Nat → α :=
  fun j => if j = i then x else f j

/-- Value of a `size_t` cell defaulting the `max()` sentinel to `0`;
reads in the algorithm only ever hit assigned cells. -/
def semiD (semi : Nat → Option Nat) (i : Nat) : Nat :=
  (semi i).getD 0

/-- Lookup in the sorted association list modelling `std::map<Vertex, size_t>`. -/
def mapFind : List (Nat × Nat) → Nat → Option Nat
  | [], _ => none
  | (k, v) :: rest, k' => if k' = k then some v else mapFind rest k'

/-- Sorted insert-or-overwrite, modelling `m[k] = v` on `std::map`. -/
def mapAssign : List (Nat × Nat) → Nat → Nat → List (Nat × Nat)
  | [], k, v => [(k, v)]
  | (k', v') :: rest, k, v =>
    if k < k' then (k, v) :: (k', v') :: rest
    else if k = k' then (k, v) :: rest
    else (k', v') :: mapAssign rest k v

/-- `std::map::operator[]` used as an rvalue: returns the stored value for a
present key and otherwise inserts the key with value-initialised `0`.
The possibly-updated map is returned so that the mutation is observable. -/
def mapGetOrInsert : List (Nat × Nat) → Nat → List (Nat × Nat) × Nat
  | [], k => ([(k, 0)], 0)
  | (k', v') :: rest, k =>
    if k < k' then ((k, 0) :: (k', v') :: rest, 0)
    else if k = k' then ((k', v') :: rest, v')
    else
      let r := mapGetOrInsert rest k
      ((k', v') :: r.1, r.2)

/-- `std::map::operator[]` lookup whose mutation is irrelevant to the caller
(the solver's `toIdx`): just the value, defaulting an absent key to `0`. -/
def idxD (m : List (Nat × Nat)) (v : Nat) : Nat :=
  (mapFind m v).getD 0

/-- `std::set<size_t>::insert`: sorted duplicate-free insertion. -/
def setInsert (x : Nat) : List Nat → List Nat
  | [] => [x]
  | y :: ys =>
    if x < y then x :: y :: ys
    else if x = y then y :: ys
    else y :: setInsert x ys

/-- Append `x` to the entry of key `k` of a `std::map<size_t, std::vector<size_t>>`,
creating the entry (empty vector) if absent: `m[k].emplace_back(x)`. -/
def treeAppend : List (Nat × List Nat) → Nat → Nat → List (Nat × List Nat)
  | [], k, x => [(k, [x])]
  | (k', l) :: rest, k, x =>
    if k < k' then (k, [x]) :: (k', l) :: rest
    else if k = k' then (k', l ++ [x]) :: rest
    else (k', l) :: treeAppend rest k x

/-- The mutable state of `lengauerTarjanDominator`: the members
`m_vertices` / `m_vertexIndices` together with the local arrays of the
algorithm and the DFS counter.  `accesses` is a trace of the indices used
by the unvisited-successor test of the DFS. -/
structure LTState where
  vertices : Nat → Nat
  vertexIndices : List (Nat × Nat)
  semi : Nat → Option Nat
  parent : Nat → Option Nat
  ancestor : Nat → Option Nat
  label : Nat → Nat
  predecessors : Nat → List Nat
  bucket : Nat → List Nat
  idom : Nat → Option Nat
  visited : Nat → Bool
  dfIdx : Nat
  accesses : List Nat

/-- State at the beginning of `lengauerTarjanDominator`: every vector cell
holds its initialiser (`max()` sentinel, i.e. `none`, except `label` and
`m_vertices` which are zero-initialised), the maps and sets are empty and
the DFS counter is `0`. -/
def initState : LTState where
  vertices := fun _ => 0
  vertexIndices := []
  semi := fun _ => none
  parent := fun _ => none
  ancestor := fun _ => none
  label := fun _ => 0
  predecessors := fun _ => []
  bucket := fun _ => []
  idom := fun _ => none
  visited := fun _ => false
  dfIdx := 0
  accesses := []

/-- The recursive DFS lambda of `lengauerTarjanDominator` (step 1).  On a
fresh vertex it records the vertex under the next DFS index, then for every
successor `w` it tests `semi[dfIdx] == max()` (recording `dfIdx` in the
access trace), on success writes `parent[dfIdx]` and recurses, and finally
inserts the predecessor edge. -/
def dfs (g : Nat → List Nat) : Nat → Nat → LTState → LTState
  | 0, _, s => s
  | fuel + 1, v, s =>
    if s.visited v then s
    else
      let s1 : LTState :=
        { s with
          visited := upd s.visited v true
          vertices := upd s.vertices s.dfIdx v
          vertexIndices := mapAssign s.vertexIndices v s.dfIdx
          semi := upd s.semi s.dfIdx (some s.dfIdx)
          label := upd s.label s.dfIdx s.dfIdx
          dfIdx := s.dfIdx + 1 }
      (g v).foldl
        (fun t w =>
          let t0 : LTState := { t with accesses := t.dfIdx :: t.accesses }
          let t1 : LTState :=
            if t0.semi t0.dfIdx = none then
              dfs g fuel w
                { t0 with parent := upd t0.parent t0.dfIdx (some (idxD t0.vertexIndices v)) }
            else t0
          { t1 with
            predecessors :=
              upd t1.predecessors (idxD t1.vertexIndices w)
                (setInsert (idxD t1.vertexIndices v)
                  (t1.predecessors (idxD t1.vertexIndices w))) })
        s1

/-- The state transformation performed by `dfs` on a fresh vertex before
its successors are explored (the writes guarded by the visited test). -/
def dfsEnter (v : Nat) (s : LTState) : LTState :=
  { s with
    visited := upd s.visited v true
    vertices := upd s.vertices s.dfIdx v
    vertexIndices := mapAssign s.vertexIndices v s.dfIdx
    semi := upd s.semi s.dfIdx (some s.dfIdx)
    label := upd s.label s.dfIdx s.dfIdx
    dfIdx := s.dfIdx + 1 }

/-- The successor callback of `dfs`, as a named function (definitionally
equal to the lambda in `dfs`, see `dfs_eq`). -/
def dfsF (g : Nat → List Nat) (fuel v : Nat) (t : LTState) (w : Nat) : LTState :=
  let t0 : LTState := { t with accesses := t.dfIdx :: t.accesses }
  let t1 : LTState :=
    if t0.semi t0.dfIdx = none then
      dfs g fuel w
        { t0 with parent := upd t0.parent t0.dfIdx (some (idxD t0.vertexIndices v)) }
    else t0
  { t1 with
    predecessors :=
      upd t1.predecessors (idxD t1.vertexIndices w)
        (setInsert (idxD t1.vertexIndices v)
          (t1.predecessors (idxD t1.vertexIndices w))) }

/-- The writes performed by the successor callback before recursing:
recording the access index and the spanning-tree parent of the next slot. -/
def dfsPar (v : Nat) (t : LTState) : LTState :=
  { t with
    accesses := t.dfIdx :: t.accesses
    parent := upd t.parent t.dfIdx (some (idxD t.vertexIndices v)) }

/-- The final write of the successor callback: inserting the edge
`v → w` into the predecessor set of `w`. -/
def dfsLink (v : Nat) (r : LTState) (w : Nat) : LTState :=
  { r with
    predecessors :=
      upd r.predecessors (idxD r.vertexIndices w)
        (setInsert (idxD r.vertexIndices v)
          (r.predecessors (idxD r.vertexIndices w))) }

/-- `compressPath`: recursively compresses the ancestor chain of `v`,
propagating the label of minimum semidominator root-ward first and
short-cutting `ancestor[v]`.  Returns the updated `ancestor` and `label`
arrays.  The `anc v = none` case is the `solAssert` precondition violation,
which `eval` never triggers. -/
def compressPath :
    Nat → (Nat → Option Nat) → (Nat → Nat) → (Nat → Option Nat) → Nat →
      (Nat → Option Nat) × (Nat → Nat)
  | 0, anc, lab, _, _ => (anc, lab)
  | fuel + 1, anc, lab, semi, v =>
    match anc v with
    | none => (anc, lab)
    | some u =>
      match anc u with
      | none => (anc, lab)
      | some _ =>
        let r := compressPath fuel anc lab semi u
        let lab2 :=
          if semiD semi (r.2 u) < semiD semi (r.2 v) then upd r.2 v (r.2 u) else r.2
        (upd r.1 v (r.1 u), lab2)

/-- The `eval` lambda: if `v` has a recorded ancestor, compress its path and
return the (compressed) label of `v`, otherwise return `v` itself.  Returns
the updated forest arrays together with the value. -/
def eval (fuel : Nat) (anc : Nat → Option Nat) (lab : Nat → Nat)
    (semi : Nat → Option Nat) (v : Nat) :
    ((Nat → Option Nat) × (Nat → Nat)) × Nat :=
  match anc v with
  | some _ =>
    let r := compressPath fuel anc lab semi v
    (r, r.2 v)
  | none => ((anc, lab), v)

/-- Pure specification of the value returned by `eval` in a given forest
state: the first label of minimum semidominator index on the ancestor path
of `v` (excluding the root), or `v` itself if `v` is a root. -/
def evalVal (fuel : Nat) (anc : Nat → Option Nat) (lab : Nat → Nat)
    (semi : Nat → Option Nat) (v : Nat) : Nat :=
  match fuel with
  | 0 => v
  | fuel + 1 =>
    match anc v with
    | none => v
    | some u =>
      match anc u with
      | none => lab v
      | some _ =>
        let r := evalVal fuel anc lab semi u
        if semiD semi r < semiD semi (lab v) then r else lab v

/-- Step 3 of an iteration of the reverse pass: resolve the deferred bucket
of `w`, setting `idom[v] = (semi[eval v] < semi[v]) ? eval v : w` for every
`v` in `bucket[w]`. -/
def bucketStep (n : Nat) (s : LTState) (w : Nat) : LTState :=
  (s.bucket w).foldl
    (fun t v =>
      let r := eval n t.ancestor t.label t.semi v
      { t with
        ancestor := r.1.1
        label := r.1.2
        idom := upd t.idom v (some (if semiD t.semi r.2 < semiD t.semi v then r.2 else w)) })
    s

/-- Step 2 of an iteration of the reverse pass: for every predecessor `v`
of `w`, lower `semi[w]` to `semi[eval v]` whenever that is smaller. -/
def semiStep (n : Nat) (s : LTState) (w : Nat) : LTState :=
  (s.predecessors w).foldl
    (fun t v =>
      let r := eval n t.ancestor t.label t.semi v
      let t1 : LTState := { t with ancestor := r.1.1, label := r.1.2 }
      if semiD t1.semi r.2 < semiD t1.semi w then
        { t1 with semi := upd t1.semi w (some (semiD t1.semi r.2)) }
      else t1)
    s

/-- One iteration of the reverse pass for vertex `w`: bucket resolution,
semidominator computation, `bucket[semi[w]].emplace_back(w)` and
`link(parent[w], w)` (which copies `parent[w]` into `ancestor[w]`). -/
def solverStep (n : Nat) (s : LTState) (w : Nat) : LTState :=
  let s1 := bucketStep n s w
  let s2 := semiStep n s1 w
  { s2 with
    bucket := upd s2.bucket (semiD s2.semi w) (s2.bucket (semiD s2.semi w) ++ [w])
    ancestor := upd s2.ancestor w (s2.parent w) }

/-- The loop body of `bucketStep`, as a named function (definitionally equal
to the lambda in `bucketStep`, see `bucketStep_eq`). -/
def bucketF (n w : Nat) (t : LTState) (v : Nat) : LTState :=
  let r := eval n t.ancestor t.label t.semi v
  { t with
    ancestor := r.1.1
    label := r.1.2
    idom := upd t.idom v (some (if semiD t.semi r.2 < semiD t.semi v then r.2 else w)) }

/-- The loop body of `semiStep`, as a named function (definitionally equal
to the lambda in `semiStep`, see `semiStep_eq`). -/
def semiF (n w : Nat) (t : LTState) (v : Nat) : LTState :=
  let r := eval n t.ancestor t.label t.semi v
  let t1 : LTState := { t with ancestor := r.1.1, label := r.1.2 }
  if semiD t1.semi r.2 < semiD t1.semi w then
    { t1 with semi := upd t1.semi w (some (semiD t1.semi r.2)) }
  else t1

/-- Step 4: set `idom[0] = 0` and then, over the given index order
(increasing DFS order of the non-entry slots), replace `idom[w]` by
`idom[idom[w]]` whenever `idom[w] != semi[w]`. -/
def step4 (s : LTState) (order : List Nat) : Nat → Option Nat :=
  order.foldl
    (fun idm w => if idm w ≠ s.semi w then upd idm w (idm ((idm w).getD 0)) else idm)
    (upd s.idom 0 (some 0))

/-- The loop body of `step4`, as a named function (definitionally equal to
the lambda in `step4`, see `step4_eq`). -/
def step4F (s : LTState) (idm : Nat → Option Nat) (w : Nat) : Nat → Option Nat :=
  if idm w ≠ s.semi w then upd idm w (idm ((idm w).getD 0)) else idm

/-- `lengauerTarjanDominator`: asserts `numVertices > 0`, runs the DFS from
the entry, processes `m_vertices` in reverse DFS order through
`solverStep`, and finalises the immediate dominators with `step4` over the
non-entry slots in increasing order.  Returns the final state together with
the immediate-dominator array, or `none` if the assertion fails. -/
def lengauerTarjanDominator (g : Nat → List Nat) (entry : Nat) (numVertices : Nat) :
    Option (LTState × (Nat → Option Nat)) :=
  if 0 < numVertices then
    let s1 := dfs g (numVertices + 1) entry initState
    let order := (((List.range numVertices).map s1.vertices).reverse).map (idxD s1.vertexIndices)
    let s2 := order.foldl (solverStep numVertices) s1
    let order2 := (((List.range numVertices).map s2.vertices).drop 1).map (idxD s2.vertexIndices)
    some (s2, step4 s2 order2)
  else none

/-- `std::numeric_limits<size_t>::max()`. -/
def sizeMax : Nat := 2 ^ 64 - 1

/-- The finished `Dominator` object: DFS-ordered vertex list, vertex-to-index
map, immediate-dominator vector and dominator tree. -/
structure DomFinder where
  vertices : List Nat
  vertexIndices : List (Nat × Nat)
  immediateDominators : List Nat
  dominatorTree : List (Nat × List Nat)
deriving DecidableEq

/-- `buildDominatorTree`: for every entry of `m_immediateDominators` after
the first, execute `m_dominatorTree[idomIdx].emplace_back(idomIdx)`
(this is what the source writes: the key itself is appended, not the
child's index). -/
def buildDominatorTree (idoms : List Nat) : List (Nat × List Nat) :=
  (idoms.drop 1).foldl (fun m i => treeAppend m i i) []

/-- The `Dominator` constructor: run `lengauerTarjanDominator`, read the
members off the final state (unassigned `m_immediateDominators` cells keep
the `max()` sentinel) and build the dominator tree. -/
def mkDominator (g : Nat → List Nat) (entry : Nat) (numVertices : Nat) :
    Option DomFinder :=
  (lengauerTarjanDominator g entry numVertices).map (fun p =>
    let idoms := (List.range numVertices).map (fun i => (p.2 i).getD sizeMax)
    { vertices := (List.range numVertices).map p.1.vertices
      vertexIndices := p.1.vertexIndices
      immediateDominators := idoms
      dominatorTree := buildDominatorTree idoms })

/-- The `while (idomIdx != 0)` walk of `dominates`: at a nonzero index,
return `true` on meeting `aIdx`, otherwise step to `idoms[idomIdx]`; on
reaching `0` return `aIdx == 0`. -/
def dominatesWalk (idoms : List Nat) (aIdx : Nat) : Nat → Nat → Bool
  | 0, _ => false
  | fuel + 1, i =>
    if i = 0 then decide (aIdx = 0)
    else if i = aIdx then true
    else dominatesWalk idoms aIdx fuel (idoms.getD i 0)

/-- The sequence of nonzero indices visited by walking `idoms` upward from
`i` (the indices pushed by the loop of `dominatorsOf`). -/
def idomChain (idoms : List Nat) : Nat → Nat → List Nat
  | 0, _ => []
  | fuel + 1, i => if i = 0 then [] else i :: idomChain idoms fuel (idoms.getD i 0)

/-- `Dominator::dominates`: look both vertices up with `operator[]`
(threading the possibly-mutated map), return `true` on equal indices, and
otherwise walk the immediate-dominator chain upward from `b`. -/
def DomFinder.dominates (d : DomFinder) (a b : Nat) : DomFinder × Bool :=
  let ra := mapGetOrInsert d.vertexIndices a
  let rb := mapGetOrInsert ra.1 b
  let d' : DomFinder := { d with vertexIndices := rb.1 }
  if ra.2 = rb.2 then (d', true)
  else
    (d', dominatesWalk d.immediateDominators ra.2 d.immediateDominators.length
      (d.immediateDominators.getD rb.2 0))

/-- `Dominator::dominatorsOf`: assert the vertex list is nonempty, start
the result with the entry vertex, and push `m_vertices[idomIdx]` while
walking the immediate-dominator chain upward from `idom[v]`. -/
def DomFinder.dominatorsOf (d : DomFinder) (v : Nat) : Option (DomFinder × List Nat) :=
  if d.vertices = [] then none
  else
    let rv := mapGetOrInsert d.vertexIndices v
    let d' : DomFinder := { d with vertexIndices := rv.1 }
    let i0 := d.immediateDominators.getD rv.2 0
    if i0 = 0 then some (d', [d.vertices.getD 0 0])
    else
      some (d', d.vertices.getD 0 0 ::
        (idomChain d.immediateDominators d.immediateDominators.length i0).map
          (fun j => d.vertices.getD j 0))

/-- Children lookup in the dominator tree: the list of the key `k`, or the
empty list when the key is absent (a vertex dominating nothing has no
entry in the map). -/
def treeChildren (t : List (Nat × List Nat)) (k : Nat) : List Nat :=
  ((t.find? (fun p => p.1 == k)).map (·.2)).getD []

/-- Well-formedness of the association list modelling `std::map`: keys are
strictly increasing. -/
def SortedKeys (m : List (Nat × Nat)) : Prop :=
  List.Pairwise (fun p q => p.1 < q.1) m

instance (m : List (Nat × Nat)) : Decidable (SortedKeys m) :=
  inferInstanceAs (Decidable (List.Pairwise _ m))

/-- The `semi[i] <= i` invariant: every assigned cell of `semi` is bounded
by its index. -/
def SemiLe (s : LTState) : Prop :=
  ∀ i x, s.semi i = some x → x ≤ i

/-- The list `[n-1, n-2, ..., m]` of the DFS indices processed by the
reverse pass, in processing order (empty when `m ≥ n`). -/
def descRange : Nat → Nat → List Nat
  | 0, _ => []
  | n + 1, m => if m ≤ n then n :: descRange n m else []

/-- Ancestor chains strictly decrease (which makes `compressPath` and the
forest walks terminate within any fuel larger than the start index). -/
def Decr (anc : Nat → Option Nat) : Prop :=
  ∀ x a, anc x = some a → a < x

/-- Invariant of the DFS phase, holding for the initial state and preserved
by every call of `dfs`: the per-cell facts established by the traversal. -/
structure DfsInv (s : LTState) : Prop where
  semiIdx : ∀ i, i < s.dfIdx → s.semi i = some i
  semiAbove : ∀ i, s.dfIdx ≤ i → s.semi i = none
  labIdx : ∀ i, i < s.dfIdx → s.label i = i
  labLe : ∀ x, s.label x ≤ x
  ancNone : ∀ x, s.ancestor x = none
  buckNil : ∀ x, s.bucket x = []
  idomNone : ∀ x, s.idom x = none
  parentLt : ∀ i p, s.parent i = some p → 0 < i ∧ p < i
  parentZero : s.parent 0 = none
  predLt : ∀ i p, p ∈ s.predecessors i → p < s.dfIdx ∧ i < s.dfIdx
  mapRange : ∀ k j, mapFind s.vertexIndices k = some j → j < s.dfIdx ∧ s.vertices j = k
  mapVert : ∀ i, i < s.dfIdx → mapFind s.vertexIndices (s.vertices i) = some i
  visMap : ∀ k, s.visited k = true ↔ mapFind s.vertexIndices k ≠ none

/-- Relation between the state a `dfs` call receives and the state it
returns: the DFS counter grows, assigned data is preserved, and every index
discovered during the call other than the call's own root already has its
spanning-tree parent recorded among its predecessors. -/
structure DfsGrow (v : Nat) (fuel : Nat) (t r : LTState) : Prop where
  dfle : t.dfIdx ≤ r.dfIdx
  parentStable : ∀ i, i ≤ t.dfIdx → r.parent i = t.parent i
  predGrow : ∀ i p, p ∈ t.predecessors i → p ∈ r.predecessors i
  mapGrow : ∀ k j, mapFind t.vertexIndices k = some j → mapFind r.vertexIndices k = some j
  rootFix : ∀ i, t.dfIdx ≤ i → i < r.dfIdx →
    i = t.dfIdx ∨ ∃ p, r.parent i = some p ∧ p ∈ r.predecessors i
  freshClaim : t.visited v = false → 0 < fuel →
    mapFind r.vertexIndices v = some t.dfIdx ∧ t.dfIdx < r.dfIdx

/-- Composable relation between two states of the successor fold of `dfs`:
the invariant holds, the DFS counter grows, lower cells are stable, the map
and the predecessor sets grow, and every index claimed in between has its
spanning-tree parent recorded among its predecessors. -/
structure DfsStep (t r : LTState) : Prop where
  inv : DfsInv r
  dfle : t.dfIdx ≤ r.dfIdx
  parentStable : ∀ i, i < t.dfIdx → r.parent i = t.parent i
  predGrow : ∀ i p, p ∈ t.predecessors i → p ∈ r.predecessors i
  mapGrow : ∀ k j, mapFind t.vertexIndices k = some j → mapFind r.vertexIndices k = some j
  rootFix : ∀ i, t.dfIdx ≤ i → i < r.dfIdx →
    ∃ p, r.parent i = some p ∧ p ∈ r.predecessors i

/-- Invariant of the reverse pass: `n` is the (exact) vertex count and the
iterations still to be processed are `m-1, m-2, ..., 0`; the vertices of
DFS index in `[m, n)` (excluding the entry) are the ones linked into the
forest so far. -/
structure SolveInv (n m : Nat) (s : LTState) : Prop where
  decr : Decr s.ancestor
  linked : ∀ x, s.ancestor x ≠ none ↔ (m ≤ x ∧ 0 < x ∧ x < n)
  labLinked : ∀ x, s.ancestor x ≠ none → m ≤ s.label x
  labSelf : ∀ x, x < n → s.ancestor x = none → s.label x = x
  labLe : ∀ x, s.label x ≤ x
  labSemi : ∀ x, s.ancestor x ≠ none → semiD s.semi (s.label x) ≤ semiD s.semi x
  semiFix : ∀ i, i < m → s.semi i = some i
  semiLe : ∀ i x, s.semi i = some x → x ≤ i
  semiSome : ∀ i, i < n → s.semi i ≠ none
  parentFacts : ∀ i, 0 < i → i < n → ∃ p, s.parent i = some p ∧ p < i ∧ p ∈ s.predecessors i
  parentZero : s.parent 0 = none
  predBound : ∀ i p, p ∈ s.predecessors i → p < n
  bucketInv : ∀ b w, w ∈ s.bucket b → m ≤ w ∧ w < n ∧ s.semi w = some b ∧ (0 < w → b < w)
  idomLt : ∀ w d, s.idom w = some d → d < w
  idomSet : ∀ w, m ≤ w → 0 < w → w < n → (∃ d, s.idom w = some d ∧ d < w) ∨
    (w ∈ s.bucket (semiD s.semi w) ∧ semiD s.semi w < m)

/-- Every index recorded by the unvisited-successor test is bounded by the
current DFS counter (the number of vertices discovered so far). -/
def AccLe (s : LTState) : Prop :=
  ∀ a ∈ s.accesses, a ≤ s.dfIdx

/-- Chain graph `10 → 11 → 12 → 13`. -/
def chainG : Nat → List Nat := fun v =>
  if v = 10 then [11] else if v = 11 then [12] else if v = 12 then [13] else []

/-- Diamond graph `20 → {21, 22}`, `21 → 23`, `22 → 23`. -/
def diamondG : Nat → List Nat := fun v =>
  if v = 20 then [21, 22] else if v = 21 then [23] else if v = 22 then [23] else []

/-- Two-cycle `30 → 31 → 30`. -/
def cycleG : Nat → List Nat := fun v =>
  if v = 30 then [31] else if v = 31 then [30] else []

/-- Relation between the state `s` at the start of an iteration of the
reverse pass for vertex `w` and a state `t` reached while the iteration's
`eval` calls compress the forest: everything except `ancestor`, `label`,
`semi` and `idom` is untouched, the forest stays well-formed with the same
linked set and the same `eval` values, and the labels keep their bounds. -/
structure EvalPhase (n w : Nat) (s t : LTState) : Prop where
  parentEq : t.parent = s.parent
  predsEq : t.predecessors = s.predecessors
  bucketEq : t.bucket = s.bucket
  verticesEq : t.vertices = s.vertices
  mapEq : t.vertexIndices = s.vertexIndices
  dfIdxEq : t.dfIdx = s.dfIdx
  decr : Decr t.ancestor
  rootIff : ∀ x, t.ancestor x = none ↔ s.ancestor x = none
  stable : ∀ x g, x < g → evalVal g t.ancestor t.label s.semi x =
    evalVal g s.ancestor s.label s.semi x
  labLinked : ∀ x, s.ancestor x ≠ none → w + 1 ≤ t.label x
  labUnlinked : ∀ x, s.ancestor x = none → t.label x = s.label x
  labLe : ∀ x, t.label x ≤ x
  labSemi : ∀ x, s.ancestor x ≠ none → semiD s.semi (t.label x) ≤ semiD s.semi x

/-! ### General lemmas -/

theorem foldlInv {α β : Type} {P : β → Prop} (f : β → α → β)
    (hstep : ∀ t a, P t → P (f t a)) :
    ∀ (l : List α) (s : β), P s → P (l.foldl f s) := by
  intro l
  induction l with
  | nil => intro s hs; exact hs
  | cons x xs ih => intro s hs; exact ih _ (hstep s x hs)

theorem upd_self {α : Type} (f : Nat → α) (i : Nat) (x : α) : upd f i x i = x := by
  simp [upd]

theorem upd_other {α : Type} (f : Nat → α) {i j : Nat} (x : α) (h : j ≠ i) :
    upd f i x j = f j := by
  simp [upd, h]

theorem mapFind_mem : ∀ {m : List (Nat × Nat)} {k x : Nat},
    mapFind m k = some x → (k, x) ∈ m := by
  intro m
  induction m with
  | nil => intro k x h; simp [mapFind] at h
  | cons p rest ih =>
    intro k x h
    obtain ⟨k1, v1⟩ := p
    rw [mapFind] at h
    split at h
    · next heq =>
      injection h with h2
      subst heq; subst h2
      exact List.mem_cons_self _ _
    · exact List.mem_cons_of_mem _ (ih h)

theorem mapGetOrInsert_present :
    ∀ {m : List (Nat × Nat)} {k x : Nat}, SortedKeys m → mapFind m k = some x →
      mapGetOrInsert m k = (m, x) := by
  intro m
  induction m with
  | nil => intro k x _ h; simp [mapFind] at h
  | cons p rest ih =>
    intro k x hs h
    obtain ⟨k1, v1⟩ := p
    rw [mapFind] at h
    rw [mapGetOrInsert]
    by_cases h1 : k = k1
    · subst h1
      simp only [if_pos rfl] at h
      injection h with h2
      subst h2
      simp
    · rw [if_neg h1] at h
      have hmem := mapFind_mem h
      have hlt : k1 < k := by
        have := (List.pairwise_cons.mp hs).1 (k, x) hmem
        simpa using this
      have hnotlt : ¬ k < k1 := by omega
      rw [if_neg hnotlt, if_neg h1]
      have hrest : SortedKeys rest := (List.pairwise_cons.mp hs).2
      rw [ih hrest h]

theorem idomChain_le {idoms : List Nat}
    (hidom : ∀ i, 0 < i → i < idoms.length → idoms.getD i 0 < i) :
    ∀ (fuel i : Nat), i < idoms.length → ∀ x ∈ idomChain idoms fuel i, x ≤ i := by
  intro fuel
  induction fuel with
  | zero => intro i _ x hx; simp [idomChain] at hx
  | succ fuel ih =>
    intro i hi x hx
    rw [idomChain] at hx
    split at hx
    · simp at hx
    · next h0 =>
      rcases List.mem_cons.mp hx with h | h
      · omega
      · have hj : idoms.getD i 0 < i := hidom i (Nat.pos_of_ne_zero h0) hi
        have := ih (idoms.getD i 0) (by omega) x h
        omega

theorem idomChain_pos {idoms : List Nat} :
    ∀ (fuel i : Nat), ∀ x ∈ idomChain idoms fuel i, 0 < x := by
  intro fuel
  induction fuel with
  | zero => intro i x hx; simp [idomChain] at hx
  | succ fuel ih =>
    intro i x hx
    rw [idomChain] at hx
    split at hx
    · simp at hx
    · next h0 =>
      rcases List.mem_cons.mp hx with h | h
      · subst h; exact Nat.pos_of_ne_zero h0
      · exact ih _ x h

theorem idomChain_head {idoms : List Nat} :
    ∀ (fuel i y : Nat), (idomChain idoms fuel i).head? = some y → y = i := by
  intro fuel i y h
  cases fuel with
  | zero => simp [idomChain] at h
  | succ fuel =>
    rw [idomChain] at h
    split at h
    · simp at h
    · simp at h
      omega

theorem idomChain_chain' {idoms : List Nat}
    (hidom : ∀ i, 0 < i → i < idoms.length → idoms.getD i 0 < i) :
    ∀ (fuel i : Nat), i < idoms.length →
      List.Chain' (fun x y => y = idoms.getD x 0 ∧ y < x) (idomChain idoms fuel i) := by
  intro fuel
  induction fuel with
  | zero => intro i _; simp [idomChain]
  | succ fuel ih =>
    intro i hi
    rw [idomChain]
    split
    · exact List.chain'_nil
    · next h0 =>
      have hj : idoms.getD i 0 < i := hidom i (Nat.pos_of_ne_zero h0) hi
      refine List.chain'_cons'.mpr ⟨?_, ih (idoms.getD i 0) (by omega)⟩
      intro y hy
      have := idomChain_head fuel (idoms.getD i 0) y hy
      exact ⟨this, by omega⟩

theorem idomChain_last {idoms : List Nat}
    (hidom : ∀ i, 0 < i → i < idoms.length → idoms.getD i 0 < i) :
    ∀ (fuel i : Nat), i < fuel → i < idoms.length →
      ∀ x, (idomChain idoms fuel i).getLast? = some x → idoms.getD x 0 = 0 := by
  intro fuel
  induction fuel with
  | zero => intro i hf; omega
  | succ fuel ih =>
    intro i hf hi x hx
    rw [idomChain] at hx
    split at hx
    · simp at hx
    · next h0 =>
      have hji : idoms.getD i 0 < i := hidom i (Nat.pos_of_ne_zero h0) hi
      rcases hrest : idomChain idoms fuel (idoms.getD i 0) with _ | ⟨y, ys⟩
      · rw [hrest] at hx
        simp at hx
        cases fuel with
        | zero => omega
        | succ fuel2 =>
          rw [idomChain] at hrest
          split at hrest
          · next hj0 => rw [← hx, hj0]
          · exact absurd hrest (by simp)
      · rw [hrest] at hx
        rw [List.getLast?_cons_cons] at hx
        have hlast : (idomChain idoms fuel (idoms.getD i 0)).getLast? = some x := by
          rw [hrest, hx]
        exact ih (idoms.getD i 0) (by omega) (by omega) x hlast

theorem dominatesWalk_iff {idoms : List Nat} {a : Nat}
    (hidom : ∀ i, 0 < i → i < idoms.length → idoms.getD i 0 < i) :
    ∀ (fuel i : Nat), i < fuel → i < idoms.length →
      (dominatesWalk idoms a fuel i = true ↔ a ∈ idomChain idoms fuel i ∨ a = 0) := by
  intro fuel
  induction fuel with
  | zero => intro i h; omega
  | succ fuel ih =>
    intro i hf hi
    rw [dominatesWalk, idomChain]
    by_cases h0 : i = 0
    · simp [h0, eq_comm]
    · rw [if_neg h0, if_neg h0]
      by_cases ha : i = a
      · subst ha
        simp
      · rw [if_neg ha]
        have hj : idoms.getD i 0 < i := hidom i (Nat.pos_of_ne_zero h0) hi
        rw [ih (idoms.getD i 0) (by omega) (by omega)]
        constructor
        · rintro (h | h)
          · exact Or.inl (List.mem_cons_of_mem _ h)
          · exact Or.inr h
        · rintro (h | h)
          · rcases List.mem_cons.mp h with h2 | h2
            · exact absurd h2.symm ha
            · exact Or.inl h2
          · exact Or.inr h

theorem idomChain_zero (idoms : List Nat) (fuel : Nat) : idomChain idoms fuel 0 = [] := by
  cases fuel <;> simp [idomChain]

theorem mapFind_mapAssign_self (m : List (Nat × Nat)) (k x : Nat) :
    mapFind (mapAssign m k x) k = some x := by
  induction m with
  | nil => simp [mapAssign, mapFind]
  | cons p rest ih =>
    obtain ⟨k1, v1⟩ := p
    rw [mapAssign]
    by_cases h1 : k < k1
    · rw [if_pos h1, mapFind, if_pos rfl]
    · rw [if_neg h1]
      by_cases h2 : k = k1
      · rw [if_pos h2, mapFind, if_pos rfl]
      · rw [if_neg h2, mapFind, if_neg h2]
        exact ih

theorem mapFind_mapAssign_other (m : List (Nat × Nat)) {k k' : Nat} (x : Nat) (h : k' ≠ k) :
    mapFind (mapAssign m k x) k' = mapFind m k' := by
  induction m with
  | nil => simp [mapAssign, mapFind, h]
  | cons p rest ih =>
    obtain ⟨k1, v1⟩ := p
    rw [mapAssign]
    by_cases h1 : k < k1
    · rw [if_pos h1, mapFind, if_neg h]
    · rw [if_neg h1]
      by_cases h2 : k = k1
      · rw [if_pos h2, mapFind, if_neg h]
        subst h2
        rw [mapFind, if_neg h]
      · rw [if_neg h2, mapFind]
        by_cases h3 : k' = k1
        · rw [if_pos h3, mapFind, if_pos h3]
        · rw [if_neg h3, mapFind, if_neg h3]
          exact ih

theorem setInsert_mem_self (x : Nat) (l : List Nat) : x ∈ setInsert x l := by
  induction l with
  | nil => simp [setInsert]
  | cons y ys ih =>
    rw [setInsert]
    by_cases h1 : x < y
    · simp [h1]
    · rw [if_neg h1]
      by_cases h2 : x = y
      · simp [h2]
      · rw [if_neg h2]
        exact List.mem_cons_of_mem _ ih

theorem setInsert_mem_of_mem (x z : Nat) (l : List Nat) (h : z ∈ l) : z ∈ setInsert x l := by
  induction l with
  | nil => simp at h
  | cons y ys ih =>
    rw [setInsert]
    by_cases h1 : x < y
    · rw [if_pos h1]
      exact List.mem_cons_of_mem _ h
    · rw [if_neg h1]
      by_cases h2 : x = y
      · rw [if_pos h2]
        exact h
      · rw [if_neg h2]
        rcases List.mem_cons.mp h with h3 | h3
        · exact h3 ▸ List.mem_cons_self _ _
        · exact List.mem_cons_of_mem _ (ih h3)

theorem mem_setInsert (x z : Nat) : ∀ (l : List Nat), z ∈ setInsert x l → z = x ∨ z ∈ l := by
  intro l
  induction l with
  | nil => intro h; simp [setInsert] at h; exact Or.inl h
  | cons y ys ih =>
    intro h
    rw [setInsert] at h
    split at h
    · rcases List.mem_cons.mp h with h3 | h3
      · exact Or.inl h3
      · exact Or.inr h3
    · split at h
      · exact Or.inr h
      · rcases List.mem_cons.mp h with h3 | h3
        · exact Or.inr (h3 ▸ List.mem_cons_self _ _)
        · rcases ih h3 with h4 | h4
          · exact Or.inl h4
          · exact Or.inr (List.mem_cons_of_mem _ h4)

theorem foldlMin_le_init : ∀ (l : List Nat) (a : Nat), l.foldl min a ≤ a := by
  intro l
  induction l with
  | nil => intro a; exact Nat.le_refl a
  | cons x xs ih => intro a; exact le_trans (ih (min a x)) (Nat.min_le_left a x)

theorem foldlMin_le_mem : ∀ (l : List Nat) (a y : Nat), y ∈ l → l.foldl min a ≤ y := by
  intro l
  induction l with
  | nil => intro a y h; simp at h
  | cons x xs ih =>
    intro a y h
    rcases List.mem_cons.mp h with h1 | h1
    · subst h1
      exact le_trans (foldlMin_le_init xs (min a y)) (Nat.min_le_right a y)
    · exact ih (min a x) y h1

theorem foldlMin_shift : ∀ (l : List Nat) (a x : Nat),
    l.foldl min (min a x) = min a (l.foldl min x) := by
  intro l
  induction l with
  | nil => intro a x; rfl
  | cons y ys ih =>
    intro a x
    rw [List.foldl_cons, List.foldl_cons, Nat.min_assoc, ih]

theorem descRange_self (n : Nat) : descRange n n = [] := by
  cases n with
  | zero => rfl
  | succ n => rw [descRange, if_neg (by omega)]

theorem descRange_split : ∀ (n m : Nat), m < n →
    descRange n m = descRange n (m + 1) ++ [m] := by
  intro n
  induction n with
  | zero => intro m h; omega
  | succ n ih =>
    intro m h
    rw [descRange, if_pos (by omega)]
    by_cases h2 : m = n
    · subst h2
      rw [descRange_self]
      have h4 : descRange (m + 1) (m + 1) = [] := descRange_self (m + 1)
      rw [h4]
      rfl
    · have h3 : m < n := by omega
      rw [ih m h3]
      have : descRange (n + 1) (m + 1) = n :: descRange n (m + 1) := by
        rw [descRange, if_pos (by omega)]
      rw [this]
      rfl

theorem range_reverse_eq_descRange (n : Nat) : (List.range n).reverse = descRange n 0 := by
  induction n with
  | zero => rfl
  | succ n ih =>
    rw [List.range_succ, List.reverse_append, ih, descRange, if_pos (Nat.zero_le n)]
    rfl

theorem descRange_mem : ∀ (n m x : Nat), x ∈ descRange n m → m ≤ x ∧ x < n := by
  intro n
  induction n with
  | zero => intro m x h; simp [descRange] at h
  | succ n ih =>
    intro m x h
    rw [descRange] at h
    split at h
    · rcases List.mem_cons.mp h with h1 | h1
      · omega
      · have := ih m x h1
        omega
    · simp at h

/-! ### Unfolding lemmas for the forest operations -/

theorem evalVal_root {anc : Nat → Option Nat} (lab : Nat → Nat) (semi : Nat → Option Nat)
    (f v : Nat) (h : anc v = none) : evalVal (f + 1) anc lab semi v = v := by
  simp only [evalVal, h]

theorem evalVal_mid {anc : Nat → Option Nat} (lab : Nat → Nat) (semi : Nat → Option Nat)
    {f v u : Nat} (h1 : anc v = some u) (h2 : anc u = none) :
    evalVal (f + 1) anc lab semi v = lab v := by
  simp only [evalVal, h1, h2]

theorem evalVal_deep {anc : Nat → Option Nat} (lab : Nat → Nat) (semi : Nat → Option Nat)
    {f v u z : Nat} (h1 : anc v = some u) (h2 : anc u = some z) :
    evalVal (f + 1) anc lab semi v =
      if semiD semi (evalVal f anc lab semi u) < semiD semi (lab v) then
        evalVal f anc lab semi u
      else lab v := by
  simp only [evalVal, h1, h2]

theorem compress_root {anc : Nat → Option Nat} (lab : Nat → Nat) (semi : Nat → Option Nat)
    (f v : Nat) (h : anc v = none) : compressPath (f + 1) anc lab semi v = (anc, lab) := by
  simp only [compressPath, h]

theorem compress_mid {anc : Nat → Option Nat} (lab : Nat → Nat) (semi : Nat → Option Nat)
    {f v u : Nat} (h1 : anc v = some u) (h2 : anc u = none) :
    compressPath (f + 1) anc lab semi v = (anc, lab) := by
  simp only [compressPath, h1, h2]

theorem compress_deep {anc : Nat → Option Nat} (lab : Nat → Nat) (semi : Nat → Option Nat)
    {f v u z : Nat} (h1 : anc v = some u) (h2 : anc u = some z) :
    compressPath (f + 1) anc lab semi v =
      ((upd (compressPath f anc lab semi u).1 v ((compressPath f anc lab semi u).1 u)),
       if semiD semi ((compressPath f anc lab semi u).2 u) <
           semiD semi ((compressPath f anc lab semi u).2 v) then
         upd (compressPath f anc lab semi u).2 v ((compressPath f anc lab semi u).2 u)
       else (compressPath f anc lab semi u).2) := by
  simp only [compressPath, h1, h2]

theorem eval_linked {anc : Nat → Option Nat} (lab : Nat → Nat) (semi : Nat → Option Nat)
    {fuel v u : Nat} (h : anc v = some u) :
    eval fuel anc lab semi v =
      (compressPath fuel anc lab semi v, (compressPath fuel anc lab semi v).2 v) := by
  simp only [eval, h]

theorem eval_root {anc : Nat → Option Nat} (lab : Nat → Nat) (semi : Nat → Option Nat)
    {fuel v : Nat} (h : anc v = none) :
    eval fuel anc lab semi v = ((anc, lab), v) := by
  simp only [eval, h]

theorem semiD_upd_other (semi : Nat → Option Nat) (w : Nat) (m : Option Nat) {x : Nat}
    (h : x ≠ w) : semiD (upd semi w m) x = semiD semi x := by
  simp [semiD, upd, h]

/-! ### Properties of the pure `eval` value -/

theorem evalVal_fuel {anc : Nat → Option Nat} (lab : Nat → Nat) (semi : Nat → Option Nat)
    (hd : Decr anc) :
    ∀ (v f1 f2 : Nat), v < f1 → v < f2 →
      evalVal f1 anc lab semi v = evalVal f2 anc lab semi v := by
  intro v
  induction v using Nat.strong_induction_on with
  | _ v ih =>
    intro f1 f2 h1 h2
    cases f1 with
    | zero => omega
    | succ f1 =>
      cases f2 with
      | zero => omega
      | succ f2 =>
        rcases hv : anc v with _ | u
        · rw [evalVal_root lab semi f1 v hv, evalVal_root lab semi f2 v hv]
        · rcases hu : anc u with _ | z
          · rw [evalVal_mid lab semi hv hu, evalVal_mid lab semi hv hu]
          · rw [evalVal_deep lab semi hv hu, evalVal_deep lab semi hv hu]
            have hlt : u < v := hd v u hv
            rw [ih u hlt f1 f2 (by omega) (by omega)]

theorem evalVal_le {anc : Nat → Option Nat} {lab : Nat → Nat} {semi : Nat → Option Nat}
    (hd : Decr anc) (hl : ∀ x, lab x ≤ x) :
    ∀ (v f : Nat), evalVal f anc lab semi v ≤ v := by
  intro v
  induction v using Nat.strong_induction_on with
  | _ v ih =>
    intro f
    cases f with
    | zero => simp only [evalVal]; exact Nat.le_refl v
    | succ f =>
      rcases hv : anc v with _ | u
      · rw [evalVal_root lab semi f v hv]
      · rcases hu : anc u with _ | z
        · rw [evalVal_mid lab semi hv hu]
          exact hl v
        · rw [evalVal_deep lab semi hv hu]
          have hlt : u < v := hd v u hv
          split
          · exact le_trans (ih u hlt f) (by omega)
          · exact hl v

theorem evalVal_semiD_le {anc : Nat → Option Nat} {lab : Nat → Nat} {semi : Nat → Option Nat}
    (hd : Decr anc)
    (hls : ∀ x, anc x ≠ none → semiD semi (lab x) ≤ semiD semi x) :
    ∀ (v f : Nat), semiD semi (evalVal f anc lab semi v) ≤ semiD semi v := by
  intro v
  induction v using Nat.strong_induction_on with
  | _ v ih =>
    intro f
    cases f with
    | zero => simp only [evalVal]; exact Nat.le_refl _
    | succ f =>
      rcases hv : anc v with _ | u
      · rw [evalVal_root lab semi f v hv]
      · rcases hu : anc u with _ | z
        · rw [evalVal_mid lab semi hv hu]
          exact hls v (by rw [hv]; exact Option.noConfusion)
        · rw [evalVal_deep lab semi hv hu]
          have hlv : semiD semi (lab v) ≤ semiD semi v :=
            hls v (by rw [hv]; exact Option.noConfusion)
          split
          · next h => omega
          · exact hlv

theorem evalVal_shape {anc : Nat → Option Nat} {lab : Nat → Nat} {semi : Nat → Option Nat}
    (hd : Decr anc) :
    ∀ (v f : Nat), anc v ≠ none →
      (∃ x, anc x ≠ none ∧ evalVal f anc lab semi v = lab x) ∨
      (∃ x, anc x ≠ none ∧ evalVal f anc lab semi v = x) := by
  intro v
  induction v using Nat.strong_induction_on with
  | _ v ih =>
    intro f hv0
    cases f with
    | zero =>
      simp only [evalVal]
      exact Or.inr ⟨v, hv0, rfl⟩
    | succ f =>
      rcases hv : anc v with _ | u
      · exact absurd hv hv0
      · rcases hu : anc u with _ | z
        · rw [evalVal_mid lab semi hv hu]
          exact Or.inl ⟨v, hv0, rfl⟩
        · rw [evalVal_deep lab semi hv hu]
          have hlt : u < v := hd v u hv
          split
          · exact ih u hlt f (by rw [hu]; exact Option.noConfusion)
          · exact Or.inl ⟨v, hv0, rfl⟩

theorem evalVal_upd_semi {anc : Nat → Option Nat} {lab : Nat → Nat} {semi : Nat → Option Nat}
    {w : Nat} {m : Option Nat} (hd : Decr anc) (hw : anc w = none)
    (hlw : ∀ x, anc x ≠ none → lab x ≠ w) :
    ∀ (v f : Nat), evalVal f anc lab (upd semi w m) v = evalVal f anc lab semi v := by
  intro v
  induction v using Nat.strong_induction_on with
  | _ v ih =>
    intro f
    cases f with
    | zero => simp only [evalVal]
    | succ f =>
      rcases hv : anc v with _ | u
      · rw [evalVal_root lab (upd semi w m) f v hv, evalVal_root lab semi f v hv]
      · rcases hu : anc u with _ | z
        · rw [evalVal_mid lab (upd semi w m) hv hu, evalVal_mid lab semi hv hu]
        · rw [evalVal_deep lab (upd semi w m) hv hu, evalVal_deep lab semi hv hu]
          have hlt : u < v := hd v u hv
          rw [ih u hlt f]
          have hlabv : lab v ≠ w := hlw v (by rw [hv]; exact Option.noConfusion)
          have hrw : evalVal f anc lab semi u ≠ w := by
            rcases evalVal_shape hd u f (by rw [hu]; exact Option.noConfusion) with
              ⟨x, hx, he⟩ | ⟨x, hx, he⟩
            · rw [he]; exact hlw x hx
            · rw [he]
              intro hxw
              rw [hxw, hw] at hx
              exact hx rfl
          rw [semiD_upd_other semi w m hrw, semiD_upd_other semi w m hlabv]

theorem compress_onepoint {anc1 : Nat → Option Nat} {lab1 : Nat → Nat}
    {semi : Nat → Option Nat} {v u a : Nat} (hd1 : Decr anc1) (hv : anc1 v = some u)
    (hu : anc1 u = some a) (ha : anc1 a = none) :
    ∀ (x g : Nat), x < g →
      evalVal g (upd anc1 v (anc1 u))
        (if semiD semi (lab1 u) < semiD semi (lab1 v) then upd lab1 v (lab1 u) else lab1)
        semi x
      = evalVal g anc1 lab1 semi x := by
  have huv : u < v := hd1 v u hv
  have hau : a < u := hd1 u a hu
  intro x
  induction x using Nat.strong_induction_on with
  | _ x ih =>
    intro g hg
    cases g with
    | zero => omega
    | succ g =>
      by_cases hxv : x = v
      · subst hxv
        have h2v : upd anc1 x (anc1 u) x = some a := by rw [upd_self, hu]
        have h2a : upd anc1 x (anc1 u) a = none := by
          rw [upd_other _ _ (by omega)]
          exact ha
        rw [evalVal_mid _ semi h2v h2a]
        rw [evalVal_deep lab1 semi hv hu]
        have hg2 : ∃ g2, g = g2 + 1 := ⟨g - 1, by omega⟩
        obtain ⟨g2, rfl⟩ := hg2
        rw [evalVal_mid lab1 semi hu ha]
        by_cases hc : semiD semi (lab1 u) < semiD semi (lab1 x)
        · rw [if_pos hc, if_pos hc, upd_self]
        · rw [if_neg hc, if_neg hc]
      · have h2x : upd anc1 v (anc1 u) x = anc1 x := upd_other _ _ hxv
        have hlabx :
            (if semiD semi (lab1 u) < semiD semi (lab1 v) then upd lab1 v (lab1 u) else lab1) x
              = lab1 x := by
          split
          · exact upd_other _ _ hxv
          · rfl
        rcases hx : anc1 x with _ | y
        · rw [evalVal_root _ semi g x (h2x.trans hx), evalVal_root lab1 semi g x hx]
        · have hyx : y < x := hd1 x y hx
          by_cases hyv : y = v
          · subst hyv
            have h2y : upd anc1 y (anc1 u) y = some a := by rw [upd_self, hu]
            rw [evalVal_deep _ semi (h2x.trans hx) h2y]
            rw [evalVal_deep lab1 semi hx hv]
            rw [ih y hyx g (by omega), hlabx]
          · have h2y : upd anc1 v (anc1 u) y = anc1 y := upd_other _ _ hyv
            rcases hy : anc1 y with _ | z
            · rw [evalVal_mid _ semi (h2x.trans hx) (h2y.trans hy),
                evalVal_mid lab1 semi hx hy, hlabx]
            · rw [evalVal_deep _ semi (h2x.trans hx) (h2y.trans hy),
                evalVal_deep lab1 semi hx hy]
              rw [ih y hyx g (by omega), hlabx]

theorem compress_core {semi : Nat → Option Nat} :
    ∀ (v : Nat) (anc : Nat → Option Nat) (lab : Nat → Nat) (fuel : Nat),
      Decr anc → v < fuel →
      Decr (compressPath fuel anc lab semi v).1 ∧
      (∀ x, (compressPath fuel anc lab semi v).1 x = none ↔ anc x = none) ∧
      (∀ x, v < x → (compressPath fuel anc lab semi v).1 x = anc x ∧
        (compressPath fuel anc lab semi v).2 x = lab x) ∧
      (∀ x, anc x = none → (compressPath fuel anc lab semi v).2 x = lab x) ∧
      (anc v ≠ none → (compressPath fuel anc lab semi v).2 v = evalVal fuel anc lab semi v) ∧
      (anc v ≠ none → ∀ p, (compressPath fuel anc lab semi v).1 v = some p →
        (compressPath fuel anc lab semi v).1 p = none) ∧
      (∀ x g, x < g → evalVal g (compressPath fuel anc lab semi v).1
        (compressPath fuel anc lab semi v).2 semi x = evalVal g anc lab semi x) ∧
      (∀ (P : Nat → Prop), (∀ x, anc x ≠ none → P (lab x)) →
        ∀ x, anc x ≠ none → P ((compressPath fuel anc lab semi v).2 x)) ∧
      ((∀ x, lab x ≤ x) → ∀ x, (compressPath fuel anc lab semi v).2 x ≤ x) ∧
      ((∀ x, anc x ≠ none → semiD semi (lab x) ≤ semiD semi x) →
        ∀ x, anc x ≠ none → semiD semi ((compressPath fuel anc lab semi v).2 x) ≤ semiD semi x) := by
  intro v
  induction v using Nat.strong_induction_on with
  | _ v ihv =>
    intro anc lab fuel hd hf
    cases fuel with
    | zero => omega
    | succ f =>
      rcases hv : anc v with _ | u
      · rw [compress_root lab semi f v hv]
        refine ⟨hd, fun x => Iff.rfl, fun x _ => ⟨rfl, rfl⟩, fun x _ => rfl, ?_, ?_,
          fun x g _ => rfl, fun P hP x hx => hP x hx, fun h x => h x, fun h x hx => h x hx⟩
        · intro h; exact absurd rfl h
        · intro h; exact absurd rfl h
      · rcases hu : anc u with _ | z
        · rw [compress_mid lab semi hv hu]
          refine ⟨hd, fun x => Iff.rfl, fun x _ => ⟨rfl, rfl⟩, fun x _ => rfl, ?_, ?_,
            fun x g _ => rfl, fun P hP x hx => hP x hx, fun h x => h x, fun h x hx => h x hx⟩
          · intro _
            rw [evalVal_mid lab semi hv hu]
          · intro _ p hp
            have hp2 : anc v = some p := hp
            rw [hv] at hp2
            injection hp2 with hp3
            show anc p = none
            rw [← hp3]
            exact hu
        · -- deep case
          have huv : u < v := hd v u hv
          have hu2 : u < f := by omega
          obtain ⟨ihd, ihiff, ihabove, ihunl, ihval, ihroot, ihstab, ihP, ihle, ihsemi⟩ :=
            ihv u huv anc lab f hd hu2
          rw [compress_deep lab semi hv hu]
          dsimp only
          set anc1 := (compressPath f anc lab semi u).1 with hanc1
          set lab1 := (compressPath f anc lab semi u).2 with hlab1
          have hanc1v : anc1 v = some u := (ihabove v huv).1.trans hv
          have hlab1v : lab1 v = lab v := (ihabove v huv).2
          have hanc1u : ∃ a, anc1 u = some a := by
            rcases h : anc1 u with _ | a
            · rw [ihiff u] at h
              rw [h] at hu
              exact absurd hu (by simp)
            · exact ⟨a, rfl⟩
          obtain ⟨a, ha⟩ := hanc1u
          have hroota : anc1 a = none := ihroot (by rw [hu]; exact Option.noConfusion) a ha
          have hav : a < u := ihd u a ha
          -- the update applied on top of (anc1, lab1)
          have hupdanc : ∀ x, x ≠ v → upd anc1 v (anc1 u) x = anc1 x :=
            fun x hx => upd_other _ _ hx
          have hlab2 : ∀ x, x ≠ v →
              (if semiD semi (lab1 u) < semiD semi (lab1 v) then upd lab1 v (lab1 u)
                else lab1) x = lab1 x := by
            intro x hx
            split
            · exact upd_other _ _ hx
            · rfl
          have hlab2v :
              (if semiD semi (lab1 u) < semiD semi (lab1 v) then upd lab1 v (lab1 u)
                else lab1) v =
              (if semiD semi (lab1 u) < semiD semi (lab1 v) then lab1 u else lab1 v) := by
            split
            · exact upd_self _ _ _
            · rfl
          refine ⟨?_, ?_, ?_, ?_, ?_, ?_, ?_, ?_, ?_, ?_⟩
          · -- Decr
            intro x b hb
            by_cases hx : x = v
            · subst hx
              rw [upd_self, ha] at hb
              injection hb with hb2
              omega
            · rw [hupdanc x hx] at hb
              exact ihd x b hb
          · -- none-iff
            intro x
            by_cases hx : x = v
            · subst hx
              rw [upd_self, ha, hv]
              simp
            · rw [hupdanc x hx]
              exact ihiff x
          · -- above v untouched
            intro x hx
            constructor
            · rw [hupdanc x (by omega)]
              exact (ihabove x (by omega)).1
            · rw [hlab2 x (by omega)]
              exact (ihabove x (by omega)).2
          · -- unlinked labels untouched
            intro x hx
            have hxv : x ≠ v := by
              intro h
              rw [h, hv] at hx
              exact Option.noConfusion hx
            rw [hlab2 x hxv]
            exact ihunl x hx
          · -- value of the compressed label at v
            intro _
            rw [hlab2v, hlab1v]
            rw [evalVal_deep lab semi hv hu]
            have hlab1u : lab1 u = evalVal f anc lab semi u :=
              ihval (by rw [hu]; exact Option.noConfusion)
            rw [hlab1u]
          · -- points at a root
            intro _ p hp
            rw [upd_self, ha] at hp
            injection hp with hp2
            subst hp2
            rw [hupdanc a (by omega)]
            exact hroota
          · -- stability of the eval value
            intro x g hg
            have h1 := @compress_onepoint anc1 lab1 semi v u a ihd hanc1v ha hroota x g hg
            have h2 := ihstab x g hg
            exact h1.trans h2
          · -- predicate transport on linked labels
            intro P hP x hx
            have hP1 : ∀ y, anc y ≠ none → P (lab1 y) := ihP P hP
            by_cases hxv : x = v
            · subst hxv
              rw [hlab2v]
              split
              · exact hP1 u (by rw [hu]; exact Option.noConfusion)
              · exact hP1 x hx
            · rw [hlab2 x hxv]
              exact hP1 x hx
          · -- labels bounded by index
            intro hle x
            have hle1 : ∀ y, lab1 y ≤ y := ihle hle
            by_cases hxv : x = v
            · subst hxv
              rw [hlab2v]
              split
              · exact le_trans (hle1 u) (by omega)
              · exact hle1 x
            · rw [hlab2 x hxv]
              exact hle1 x
          · -- semidominator bound transport
            intro hsm x hx
            have hsm1 : ∀ y, anc y ≠ none → semiD semi (lab1 y) ≤ semiD semi y :=
              ihsemi hsm
            by_cases hxv : x = v
            · subst hxv
              rw [hlab2v, hlab1v]
              split
              · next hcond =>
                have h3 := hsm x hx
                omega
              · exact hsm x hx
            · rw [hlab2 x hxv]
              exact hsm1 x hx

theorem upd_upd {α : Type} (f : Nat → α) (i : Nat) (a b : α) :
    upd (upd f i a) i b = upd f i b := by
  funext j
  by_cases h : j = i
  · subst h; rw [upd_self, upd_self]
  · rw [upd_other _ _ h, upd_other _ _ h, upd_other _ _ h]

theorem foldlRstable {α β : Type} {P R : β → Prop} (f : β → α → β)
    (hP : ∀ t a, P t → P (f t a)) (hRs : ∀ t a, P t → R t → R (f t a)) :
    ∀ (l : List α) (s : β), P s → R s → R (l.foldl f s) := by
  intro l
  induction l with
  | nil => intro s _ h; exact h
  | cons x xs ih => intro s hs hr; exact ih _ (hP s x hs) (hRs s x hs hr)

theorem foldlMemInv {α β : Type} {P : β → Prop} {R : α → β → Prop} (f : β → α → β)
    (hP : ∀ t a, P t → P (f t a))
    (hR : ∀ t a, P t → R a (f t a))
    (hRs : ∀ t a b, P t → R b t → R b (f t a)) :
    ∀ (l : List α) (s : β), P s → ∀ b ∈ l, R b (l.foldl f s) := by
  intro l
  induction l with
  | nil => intro s _ b hb; simp at hb
  | cons x xs ih =>
    intro s hs b hb
    rcases List.mem_cons.mp hb with h1 | h1
    · subst h1
      exact foldlRstable f hP (fun t a ht hr => hRs t a b ht hr) xs (f s b)
        (hP s b hs) (hR s b hs)
    · exact ih (f s x) (hP s x hs) b h1

theorem eval_spec {anc : Nat → Option Nat} {lab : Nat → Nat} {semi : Nat → Option Nat}
    {v fuel : Nat} (hd : Decr anc) (hf : v < fuel) :
    (eval fuel anc lab semi v).2 = evalVal fuel anc lab semi v ∧
    Decr (eval fuel anc lab semi v).1.1 ∧
    (∀ x, (eval fuel anc lab semi v).1.1 x = none ↔ anc x = none) ∧
    (∀ x g, x < g → evalVal g (eval fuel anc lab semi v).1.1
      (eval fuel anc lab semi v).1.2 semi x = evalVal g anc lab semi x) ∧
    (∀ (P : Nat → Prop), (∀ x, anc x ≠ none → P (lab x)) →
      ∀ x, anc x ≠ none → P ((eval fuel anc lab semi v).1.2 x)) ∧
    ((∀ x, lab x ≤ x) → ∀ x, (eval fuel anc lab semi v).1.2 x ≤ x) ∧
    ((∀ x, anc x ≠ none → semiD semi (lab x) ≤ semiD semi x) →
      ∀ x, anc x ≠ none → semiD semi ((eval fuel anc lab semi v).1.2 x) ≤ semiD semi x) ∧
    (∀ x, anc x = none → (eval fuel anc lab semi v).1.2 x = lab x) := by
  rcases hv : anc v with _ | u
  · rw [eval_root lab semi hv]
    refine ⟨?_, hd, fun x => Iff.rfl, fun x g _ => rfl, fun P hP x hx => hP x hx,
      fun h x => h x, fun h x hx => h x hx, fun x _ => rfl⟩
    cases fuel with
    | zero => omega
    | succ f => rw [evalVal_root lab semi f v hv]
  · obtain ⟨c2, c3, _, c10, c4, _, c5, c6, c7, c11⟩ :=
      compress_core v anc lab fuel hd hf
    rw [eval_linked lab semi hv]
    exact ⟨c4 (by rw [hv]; exact Option.noConfusion), c2, c3, c5, c6, c7, c11, c10⟩

theorem foldlInvMem {α β : Type} {P : β → Prop} (f : β → α → β) :
    ∀ (l : List α), (∀ t a, a ∈ l → P t → P (f t a)) → ∀ (s : β), P s → P (l.foldl f s) := by
  intro l
  induction l with
  | nil => intro _ s hs; exact hs
  | cons x xs ih =>
    intro hstep s hs
    exact ih (fun t a ha ht => hstep t a (List.mem_cons_of_mem _ ha) ht) _
      (hstep s x (List.mem_cons_self _ _) hs)

theorem foldlRstableMem {α β : Type} {P R : β → Prop} (f : β → α → β) :
    ∀ (l : List α), (∀ t a, a ∈ l → P t → P (f t a)) →
      (∀ t a, a ∈ l → P t → R t → R (f t a)) →
      ∀ (s : β), P s → R s → R (l.foldl f s) := by
  intro l
  induction l with
  | nil => intro _ _ s _ h; exact h
  | cons x xs ih =>
    intro hP hRs s hs hr
    exact ih (fun t a ha ht => hP t a (List.mem_cons_of_mem _ ha) ht)
      (fun t a ha ht h2 => hRs t a (List.mem_cons_of_mem _ ha) ht h2)
      _ (hP s x (List.mem_cons_self _ _) hs) (hRs s x (List.mem_cons_self _ _) hs hr)

theorem foldlMemInvMem {α β : Type} {P : β → Prop} {R : α → β → Prop} (f : β → α → β) :
    ∀ (l : List α), (∀ t a, a ∈ l → P t → P (f t a)) →
      (∀ t a, a ∈ l → P t → R a (f t a)) →
      (∀ t a b, a ∈ l → P t → R b t → R b (f t a)) →
      ∀ (s : β), P s → ∀ b ∈ l, R b (l.foldl f s) := by
  intro l
  induction l with
  | nil => intro _ _ _ s _ b hb; simp at hb
  | cons x xs ih =>
    intro hP hR hRs s hs b hb
    rcases List.mem_cons.mp hb with h1 | h1
    · subst h1
      refine foldlRstableMem f xs
        (fun t a ha ht => hP t a (List.mem_cons_of_mem _ ha) ht)
        (fun t a ha ht h2 => hRs t a b (List.mem_cons_of_mem _ ha) ht h2)
        _ (hP s b (List.mem_cons_self _ _) hs) (hR s b (List.mem_cons_self _ _) hs)
    · exact ih (fun t a ha ht => hP t a (List.mem_cons_of_mem _ ha) ht)
        (fun t a ha ht => hR t a (List.mem_cons_of_mem _ ha) ht)
        (fun t a c ha ht hr => hRs t a c (List.mem_cons_of_mem _ ha) ht hr)
        _ (hP s x (List.mem_cons_self _ _) hs) b h1

theorem bucketStep_eq (n : Nat) (s : LTState) (w : Nat) :
    bucketStep n s w = (s.bucket w).foldl (bucketF n w) s := rfl

theorem semiStep_eq (n : Nat) (s : LTState) (w : Nat) :
    semiStep n s w = (s.predecessors w).foldl (semiF n w) s := rfl

theorem bucketStep_lemma {n w : Nat} {s : LTState} (hinv : SolveInv n (w + 1) s)
    (hwn : w < n) :
    EvalPhase n w s (bucketStep n s w) ∧
    (bucketStep n s w).semi = s.semi ∧
    (∀ x d, (bucketStep n s w).idom x = some d → s.idom x = some d ∨ d < x) ∧
    (∀ x, s.idom x ≠ none → (bucketStep n s w).idom x ≠ none) ∧
    (∀ v ∈ s.bucket w, ∃ d, (bucketStep n s w).idom v = some d ∧ d < v) := by
  have hstep : ∀ (t : LTState) (v : Nat), v ∈ s.bucket w →
      (EvalPhase n w s t ∧ t.semi = s.semi ∧
        (∀ x d, t.idom x = some d → s.idom x = some d ∨ d < x) ∧
        (∀ x, s.idom x ≠ none → t.idom x ≠ none)) →
      ((EvalPhase n w s (bucketF n w t v) ∧ (bucketF n w t v).semi = s.semi ∧
        (∀ x d, (bucketF n w t v).idom x = some d → s.idom x = some d ∨ d < x) ∧
        (∀ x, s.idom x ≠ none → (bucketF n w t v).idom x ≠ none)) ∧
       (∃ d, (bucketF n w t v).idom v = some d ∧ d < v) ∧
       (∀ b, (∃ d, t.idom b = some d ∧ d < b) →
         ∃ d, (bucketF n w t v).idom b = some d ∧ d < b)) := by
    intro t v hv ht
    obtain ⟨hEP, hts, hOK, hSome⟩ := ht
    obtain ⟨hv1, hv2, hv3, hv4⟩ := hinv.bucketInv w v hv
    have hwv : w < v := by omega
    rw [bucketF]
    dsimp only
    rw [hts]
    obtain ⟨e1, e2, e3, e4, e5, e6, e7, e8⟩ :=
      @eval_spec t.ancestor t.label s.semi v n hEP.decr hv2
    have hlinkconv : ∀ y, t.ancestor y ≠ none → s.ancestor y ≠ none := by
      intro y hy h0
      exact hy ((hEP.rootIff y).mpr h0)
    have hlinkconv2 : ∀ y, s.ancestor y ≠ none → t.ancestor y ≠ none := by
      intro y hy h0
      exact hy ((hEP.rootIff y).mp h0)
    have hdval : ∀ d, (if semiD s.semi (eval n t.ancestor t.label s.semi v).2 <
        semiD s.semi v then (eval n t.ancestor t.label s.semi v).2 else w) = d → d < v := by
      intro d hd
      split at hd
      · next hc =>
        have hle : (eval n t.ancestor t.label s.semi v).2 ≤ v := by
          rw [e1]
          exact evalVal_le hEP.decr hEP.labLe v n
        rcases Nat.lt_or_ge (eval n t.ancestor t.label s.semi v).2 v with h | h
        · omega
        · have hev : (eval n t.ancestor t.label s.semi v).2 = v := by omega
          rw [hev] at hc
          omega
      · omega
    refine ⟨⟨⟨?_, ?_, ?_, ?_, ?_, ?_, e2, ?_, ?_, ?_, ?_, e6 hEP.labLe, ?_⟩,
      rfl, ?_, ?_⟩, ?_, ?_⟩
    · exact hEP.parentEq
    · exact hEP.predsEq
    · exact hEP.bucketEq
    · exact hEP.verticesEq
    · exact hEP.mapEq
    · exact hEP.dfIdxEq
    · exact fun x => (e3 x).trans (hEP.rootIff x)
    · exact fun x g hg => (e4 x g hg).trans (hEP.stable x g hg)
    · intro x hx
      exact e5 (fun y => w + 1 ≤ y)
        (fun y hy => hEP.labLinked y (hlinkconv y hy)) x (hlinkconv2 x hx)
    · intro x hx
      exact (e8 x ((hEP.rootIff x).mpr hx)).trans (hEP.labUnlinked x hx)
    · intro x hx
      exact e7 (fun y hy => hEP.labSemi y (hlinkconv y hy)) x (hlinkconv2 x hx)
    · intro x d hx
      by_cases hxv : x = v
      · subst hxv
        rw [upd_self] at hx
        injection hx with hx2
        exact Or.inr (hdval d hx2)
      · rw [upd_other _ _ hxv] at hx
        exact hOK x d hx
    · intro x hx
      by_cases hxv : x = v
      · subst hxv
        rw [upd_self]
        exact Option.noConfusion
      · rw [upd_other _ _ hxv]
        exact hSome x hx
    · exact ⟨_, upd_self _ _ _, hdval _ rfl⟩
    · intro b hb
      obtain ⟨d, hd1, hd2⟩ := hb
      by_cases hbv : b = v
      · subst hbv
        exact ⟨_, upd_self _ _ _, hdval _ rfl⟩
      · exact ⟨d, by rw [upd_other _ _ hbv]; exact hd1, hd2⟩
  have baseP : EvalPhase n w s s ∧ s.semi = s.semi ∧
      (∀ x d, s.idom x = some d → s.idom x = some d ∨ d < x) ∧
      (∀ x, s.idom x ≠ none → s.idom x ≠ none) :=
    ⟨⟨rfl, rfl, rfl, rfl, rfl, rfl, hinv.decr, fun x => Iff.rfl, fun x g _ => rfl,
      hinv.labLinked, fun x _ => rfl, hinv.labLe, hinv.labSemi⟩, rfl,
      fun x d h => Or.inl h, fun x h => h⟩
  rw [bucketStep_eq]
  have hmain := foldlInvMem (bucketF n w) (s.bucket w)
    (fun t a ha ht => (hstep t a ha ht).1) s baseP
  refine ⟨hmain.1, hmain.2.1, hmain.2.2.1, hmain.2.2.2, ?_⟩
  exact foldlMemInvMem (bucketF n w) (s.bucket w)
    (fun t a ha ht => (hstep t a ha ht).1)
    (fun t a ha ht => (hstep t a ha ht).2.1)
    (fun t a b ha ht hr => (hstep t a ha ht).2.2 b hr) s baseP

theorem semiD_upd_self (semi : Nat → Option Nat) (w c : Nat) :
    semiD (upd semi w (some c)) w = c := by
  simp [semiD, upd]

theorem semiStep_fold {n w : Nat} {s : LTState}
    (hancw : s.ancestor w = none) (hsw : s.semi w = some w)
    (hlinkne : ∀ x, s.ancestor x ≠ none → x ≠ w) :
    ∀ (l : List Nat) (t : LTState) (c : Nat),
      (∀ p ∈ l, p < n) → EvalPhase n w s t →
      t.semi = upd s.semi w (some c) → c ≤ w →
      EvalPhase n w s (l.foldl (semiF n w) t) ∧
      (l.foldl (semiF n w) t).semi = upd s.semi w (some (l.foldl
        (fun acc p => min acc (semiD s.semi (evalVal n s.ancestor s.label s.semi p))) c)) ∧
      (l.foldl (semiF n w) t).idom = t.idom ∧
      l.foldl (fun acc p => min acc (semiD s.semi (evalVal n s.ancestor s.label s.semi p))) c
        ≤ c := by
  intro l
  induction l with
  | nil =>
    intro t c hpl hEP hts hcw
    exact ⟨hEP, hts, rfl, Nat.le_refl c⟩
  | cons p ps ih =>
    intro t c hpl hEP hts hcw
    have hp : p < n := hpl p (List.mem_cons_self _ _)
    have hconv : ∀ y, t.ancestor y ≠ none → s.ancestor y ≠ none := fun y hy h0 =>
      hy ((hEP.rootIff y).mpr h0)
    have hconv2 : ∀ y, s.ancestor y ≠ none → t.ancestor y ≠ none := fun y hy h0 =>
      hy ((hEP.rootIff y).mp h0)
    have htancw : t.ancestor w = none := (hEP.rootIff w).mpr hancw
    have htlabne : ∀ x, t.ancestor x ≠ none → t.label x ≠ w := by
      intro x hx
      have := hEP.labLinked x (hconv x hx)
      omega
    obtain ⟨e1, e2, e3, e4, e5, e6, e7, e8⟩ :=
      @eval_spec t.ancestor t.label t.semi p n hEP.decr hp
    set R := eval n t.ancestor t.label t.semi p with hR
    have hS_t : ∀ (v f : Nat), evalVal f t.ancestor t.label t.semi v =
        evalVal f t.ancestor t.label s.semi v := by
      intro v f
      rw [hts]
      exact evalVal_upd_semi hEP.decr htancw htlabne v f
    have hlab2 : ∀ x, t.ancestor x ≠ none → w + 1 ≤ R.1.2 x :=
      e5 (fun y => w + 1 ≤ y) (fun y hy => hEP.labLinked y (hconv y hy))
    have hrlabne : ∀ x, R.1.1 x ≠ none → R.1.2 x ≠ w := by
      intro x hx
      have hx2 : t.ancestor x ≠ none := fun h0 => hx ((e3 x).mpr h0)
      have := hlab2 x hx2
      omega
    have hrancw : R.1.1 w = none := (e3 w).mpr htancw
    have hS_r : ∀ (v f : Nat),
        evalVal f R.1.1 R.1.2 t.semi v = evalVal f R.1.1 R.1.2 s.semi v := by
      intro v f
      rw [hts]
      exact evalVal_upd_semi e2 hrancw hrlabne v f
    have hrval : R.2 = evalVal n s.ancestor s.label s.semi p :=
      e1.trans ((hS_t p n).trans (hEP.stable p n hp))
    have hyp7 : ∀ y, t.ancestor y ≠ none →
        semiD t.semi (t.label y) ≤ semiD t.semi y := by
      intro y hy
      have hsl := hEP.labSemi y (hconv y hy)
      have h1 : t.label y ≠ w := htlabne y hy
      have h2 : y ≠ w := hlinkne y (hconv y hy)
      rw [hts, semiD_upd_other s.semi w (some c) h1, semiD_upd_other s.semi w (some c) h2]
      exact hsl
    have hEPnext : EvalPhase n w s
        ({ t with ancestor := R.1.1, label := R.1.2 } : LTState) := by
      refine ⟨hEP.parentEq, hEP.predsEq, hEP.bucketEq, hEP.verticesEq, hEP.mapEq,
        hEP.dfIdxEq, e2, fun x => (e3 x).trans (hEP.rootIff x), ?_, ?_, ?_,
        e6 hEP.labLe, ?_⟩
      · intro x g hg
        exact (hS_r x g).symm.trans ((e4 x g hg).trans ((hS_t x g).trans (hEP.stable x g hg)))
      · intro x hx
        exact hlab2 x (hconv2 x hx)
      · intro x hx
        exact (e8 x ((hEP.rootIff x).mpr hx)).trans (hEP.labUnlinked x hx)
      · intro x hx
        have h9 := e7 hyp7 x (hconv2 x hx)
        have h1 : R.1.2 x ≠ w := by
          refine hrlabne x ?_
          intro h0
          exact (hconv2 x hx) ((e3 x).mp h0)
        have h2 : x ≠ w := hlinkne x hx
        rw [hts, semiD_upd_other s.semi w (some c) h1,
          semiD_upd_other s.semi w (some c) h2] at h9
        exact h9
    have hstep : EvalPhase n w s (semiF n w t p) ∧
        (semiF n w t p).semi = upd s.semi w (some (min c
          (semiD s.semi (evalVal n s.ancestor s.label s.semi p)))) ∧
        (semiF n w t p).idom = t.idom := by
      rw [semiF]
      dsimp only
      rw [← hR]
      by_cases hEw : evalVal n s.ancestor s.label s.semi p = w
      · have hr2 : semiD t.semi R.2 = c := by
          rw [hrval, hEw, hts, semiD_upd_self]
        have hcc : ¬ (semiD t.semi R.2 < semiD t.semi w) := by
          rw [hr2, hts, semiD_upd_self]
          omega
        rw [if_neg hcc]
        have hmin : min c (semiD s.semi (evalVal n s.ancestor s.label s.semi p)) = c := by
          rw [hEw, semiD, hsw]
          simp only [Option.getD_some]
          exact Nat.min_eq_left hcw
        rw [hmin]
        exact ⟨hEPnext, hts, rfl⟩
      · have hr2 : semiD t.semi R.2 =
            semiD s.semi (evalVal n s.ancestor s.label s.semi p) := by
          rw [hrval, hts, semiD_upd_other s.semi w (some c) hEw]
        have hcw2 : semiD t.semi w = c := by rw [hts, semiD_upd_self]
        by_cases hcond : semiD t.semi R.2 < semiD t.semi w
        · rw [if_pos hcond]
          have hlt : semiD s.semi (evalVal n s.ancestor s.label s.semi p) < c := by
            rw [← hr2, ← hcw2]
            exact hcond
          have hmin : min c (semiD s.semi (evalVal n s.ancestor s.label s.semi p)) =
              semiD s.semi (evalVal n s.ancestor s.label s.semi p) :=
            Nat.min_eq_right (Nat.le_of_lt hlt)
          refine ⟨⟨hEPnext.parentEq, hEPnext.predsEq, hEPnext.bucketEq, hEPnext.verticesEq,
            hEPnext.mapEq, hEPnext.dfIdxEq, hEPnext.decr, hEPnext.rootIff, hEPnext.stable,
            hEPnext.labLinked, hEPnext.labUnlinked, hEPnext.labLe, hEPnext.labSemi⟩, ?_, rfl⟩
          rw [hmin, hr2, hts, upd_upd]
        · rw [if_neg hcond]
          have hge : c ≤ semiD s.semi (evalVal n s.ancestor s.label s.semi p) := by
            rw [← hr2, ← hcw2]
            omega
          have hmin : min c (semiD s.semi (evalVal n s.ancestor s.label s.semi p)) = c :=
            Nat.min_eq_left hge
          rw [hmin]
          exact ⟨hEPnext, hts, rfl⟩
    rw [List.foldl_cons, List.foldl_cons]
    have hcw2 : min c (semiD s.semi (evalVal n s.ancestor s.label s.semi p)) ≤ w :=
      le_trans (Nat.min_le_left _ _) hcw
    obtain ⟨ih1, ih2, ih3, ih4⟩ := ih (semiF n w t p)
      (min c (semiD s.semi (evalVal n s.ancestor s.label s.semi p)))
      (fun q hq => hpl q (List.mem_cons_of_mem _ hq)) hstep.1 hstep.2.1 hcw2
    exact ⟨ih1, ih2, ih3.trans hstep.2.2, le_trans ih4 (Nat.min_le_left _ _)⟩

theorem solverStep_eq (n : Nat) (s : LTState) (w : Nat) :
    solverStep n s w =
      { semiStep n (bucketStep n s w) w with
        bucket := upd (semiStep n (bucketStep n s w) w).bucket
          (semiD (semiStep n (bucketStep n s w) w).semi w)
          ((semiStep n (bucketStep n s w) w).bucket
            (semiD (semiStep n (bucketStep n s w) w).semi w) ++ [w])
        ancestor := upd (semiStep n (bucketStep n s w) w).ancestor w
          ((semiStep n (bucketStep n s w) w).parent w) } := rfl

theorem solverStep_inv {n w : Nat} {s : LTState} (hinv : SolveInv n (w + 1) s)
    (hwn : w < n) :
    SolveInv n w (solverStep n s w) ∧
    (0 < w → ((s.predecessors w).map
        (fun p => semiD s.semi (eval n s.ancestor s.label s.semi p).2)).min?
      = some (semiD (solverStep n s w).semi w)) := by
  obtain ⟨hEP1, hsemi1, hOK1, hSome1, hBall⟩ := bucketStep_lemma hinv hwn
  have hancw : s.ancestor w = none := by
    by_contra h
    have := (hinv.linked w).mp h
    omega
  have hsw : s.semi w = some w := hinv.semiFix w (by omega)
  have hlinkne : ∀ x, s.ancestor x ≠ none → x ≠ w := by
    intro x hx
    have := (hinv.linked x).mp hx
    omega
  have hsemieq : (bucketStep n s w).semi = upd s.semi w (some w) := by
    rw [hsemi1]
    funext j
    by_cases hj : j = w
    · subst hj
      rw [upd_self, hsw]
    · rw [upd_other _ _ hj]
  have hpl : ∀ p ∈ s.predecessors w, p < n := fun p hp => hinv.predBound w p hp
  obtain ⟨hEP2, hsemi2, hidom2, hMle⟩ :=
    semiStep_fold hancw hsw hlinkne (s.predecessors w) (bucketStep n s w) w hpl hEP1
      hsemieq (Nat.le_refl w)
  have hs2 : semiStep n (bucketStep n s w) w =
      (s.predecessors w).foldl (semiF n w) (bucketStep n s w) := by
    rw [semiStep_eq, hEP1.predsEq]
  rw [← hs2] at hEP2 hsemi2 hidom2
  set M := (s.predecessors w).foldl
    (fun acc p => min acc (semiD s.semi (evalVal n s.ancestor s.label s.semi p))) w with hM
  -- strictness of the minimum for non-entry w
  have hstrict : 0 < w → M < w := by
    intro hw0
    obtain ⟨pw, hpw1, hpw2, hpw3⟩ := hinv.parentFacts w hw0 hwn
    have hEpw : semiD s.semi (evalVal n s.ancestor s.label s.semi pw) < w := by
      have h1 : semiD s.semi (evalVal n s.ancestor s.label s.semi pw) ≤ semiD s.semi pw :=
        evalVal_semiD_le hinv.decr hinv.labSemi pw n
      have h2 : s.semi pw = some pw := hinv.semiFix pw (by omega)
      have h3 : semiD s.semi pw = pw := by
        rw [semiD, h2]
        rfl
      omega
    have hfold : M = ((s.predecessors w).map
        (fun p => semiD s.semi (evalVal n s.ancestor s.label s.semi p))).foldl min w := by
      rw [hM, List.foldl_map]
    have hmem : semiD s.semi (evalVal n s.ancestor s.label s.semi pw) ∈
        (s.predecessors w).map
          (fun p => semiD s.semi (evalVal n s.ancestor s.label s.semi p)) :=
      List.mem_map_of_mem _ hpw3
    have := foldlMin_le_mem _ w _ hmem
    rw [← hfold] at this
    omega
  have hsemifin : (semiStep n (bucketStep n s w) w).semi = upd s.semi w (some M) := hsemi2
  have hsD : semiD (semiStep n (bucketStep n s w) w).semi w = M := by
    rw [hsemifin, semiD_upd_self]
  have hidomfin : (semiStep n (bucketStep n s w) w).idom = (bucketStep n s w).idom := hidom2
  constructor
  · rw [solverStep_eq]
    refine ⟨?_, ?_, ?_, ?_, ?_, ?_, ?_, ?_, ?_, ?_, ?_, ?_, ?_, ?_, ?_⟩ <;> dsimp only
    · -- decr
      intro x a hx
      by_cases hxw : x = w
      · subst hxw
        rw [upd_self, hEP2.parentEq] at hx
        by_cases hw0 : 0 < x
        · obtain ⟨pw, hpw1, hpw2, _⟩ := hinv.parentFacts x hw0 hwn
          rw [hpw1] at hx
          injection hx with hx2
          omega
        · have hx0 : x = 0 := by omega
          rw [hx0, hinv.parentZero] at hx
          exact Option.noConfusion hx
      · rw [upd_other _ _ hxw] at hx
        exact hEP2.decr x a hx
    · -- linked
      intro x
      by_cases hxw : x = w
      · subst hxw
        rw [upd_self, hEP2.parentEq]
        by_cases hw0 : 0 < x
        · obtain ⟨pw, hpw1, _, _⟩ := hinv.parentFacts x hw0 hwn
          rw [hpw1]
          simp
          omega
        · have hx0 : x = 0 := by omega
          rw [hx0, hinv.parentZero]
          simp
      · rw [upd_other _ _ hxw]
        constructor
        · intro hx
          have := (hinv.linked x).mp (fun h0 => hx ((hEP2.rootIff x).mpr h0))
          omega
        · intro hx
          have hx2 : w + 1 ≤ x ∧ 0 < x ∧ x < n := by omega
          have := (hinv.linked x).mpr hx2
          intro h0
          exact this ((hEP2.rootIff x).mp h0)
    · -- labLinked
      intro x hx
      by_cases hxw : x = w
      · subst hxw
        have h1 := hEP2.labUnlinked x hancw
        have h2 := hinv.labSelf x hwn hancw
        omega
      · rw [upd_other _ _ hxw] at hx
        have hsx : s.ancestor x ≠ none := fun h0 => hx ((hEP2.rootIff x).mpr h0)
        have := hEP2.labLinked x hsx
        omega
    · -- labSelf
      intro x hxn hx
      by_cases hxw : x = w
      · subst hxw
        exact (hEP2.labUnlinked x hancw).trans (hinv.labSelf x hxn hancw)
      · rw [upd_other _ _ hxw] at hx
        have hsx : s.ancestor x = none := (hEP2.rootIff x).mp hx
        exact (hEP2.labUnlinked x hsx).trans (hinv.labSelf x hxn hsx)
    · -- labLe
      exact hEP2.labLe
    · -- labSemi
      intro x hx
      by_cases hxw : x = w
      · subst hxw
        rw [(hEP2.labUnlinked x hancw).trans (hinv.labSelf x hwn hancw)]
      · rw [upd_other _ _ hxw] at hx
        have hsx : s.ancestor x ≠ none := fun h0 => hx ((hEP2.rootIff x).mpr h0)
        have hlx : (semiStep n (bucketStep n s w) w).label x ≠ w := by
          have := hEP2.labLinked x hsx
          omega
        have hxnw : x ≠ w := hxw
        have h9 := hEP2.labSemi x hsx
        rw [hsemifin, semiD_upd_other s.semi w (some M) hlx,
          semiD_upd_other s.semi w (some M) hxnw]
        exact h9
    · -- semiFix
      intro i hi
      have hiw : i ≠ w := by omega
      rw [hsemifin, upd_other _ _ hiw]
      exact hinv.semiFix i (by omega)
    · -- semiLe
      intro i x hx
      rw [hsemifin] at hx
      by_cases hiw : i = w
      · subst hiw
        rw [upd_self] at hx
        injection hx with hx2
        omega
      · rw [upd_other _ _ hiw] at hx
        exact hinv.semiLe i x hx
    · -- semiSome
      intro i hi
      rw [hsemifin]
      by_cases hiw : i = w
      · subst hiw
        rw [upd_self]
        exact Option.noConfusion
      · rw [upd_other _ _ hiw]
        exact hinv.semiSome i hi
    · -- parentFacts
      intro i h0 hi
      obtain ⟨p, hp1, hp2, hp3⟩ := hinv.parentFacts i h0 hi
      exact ⟨p, by rw [hEP2.parentEq]; exact hp1, hp2, by rw [hEP2.predsEq]; exact hp3⟩
    · -- parentZero
      rw [hEP2.parentEq]
      exact hinv.parentZero
    · -- predBound
      intro i p hp
      rw [hEP2.predsEq] at hp
      exact hinv.predBound i p hp
    · -- bucketInv
      intro b v hv
      rw [hsD, hEP2.bucketEq] at hv
      by_cases hbM : b = M
      · subst hbM
        rw [upd_self] at hv
        rcases List.mem_append.mp hv with h1 | h1
        · obtain ⟨hc1, hc2, hc3, hc4⟩ := hinv.bucketInv M v h1
          have hvw : v ≠ w := by omega
          refine ⟨by omega, hc2, ?_, hc4⟩
          rw [hsemifin, upd_other _ _ hvw]
          exact hc3
        · have hvw : v = w := by simpa using h1
          subst hvw
          refine ⟨Nat.le_refl v, hwn, ?_, fun h0 => hstrict h0⟩
          rw [hsemifin, upd_self]
      · rw [upd_other _ _ hbM] at hv
        obtain ⟨hc1, hc2, hc3, hc4⟩ := hinv.bucketInv b v hv
        have hvw : v ≠ w := by omega
        refine ⟨by omega, hc2, ?_, hc4⟩
        rw [hsemifin, upd_other _ _ hvw]
        exact hc3
    · -- idomLt
      intro v d hv
      rw [hidomfin] at hv
      rcases hOK1 v d hv with h1 | h1
      · exact hinv.idomLt v d h1
      · exact h1
    · -- idomSet
      intro v hv0 hv1 hv2
      by_cases hvw : v = w
      · subst hvw
        right
        constructor
        · rw [hsD, hEP2.bucketEq, upd_self]
          exact List.mem_append.mpr (Or.inr (List.mem_cons_self _ _))
        · rw [hsD]
          exact hstrict hv1
      · have hvw2 : w + 1 ≤ v := by omega
        rcases hinv.idomSet v hvw2 hv1 hv2 with ⟨d, hd1, hd2⟩ | ⟨hm1, hm2⟩
        · left
          have hne : (bucketStep n s w).idom v ≠ none := hSome1 v (by rw [hd1]; exact Option.noConfusion)
          rcases hd' : (bucketStep n s w).idom v with _ | d'
          · exact absurd hd' hne
          · refine ⟨d', by rw [hidomfin]; exact hd', ?_⟩
            rcases hOK1 v d' hd' with h1 | h1
            · rw [hd1] at h1
              injection h1 with h2
              omega
            · exact h1
        · by_cases hsv : semiD s.semi v = w
          · left
            obtain ⟨d, hd1, hd2⟩ := hBall v (by rw [← hsv]; exact hm1)
            exact ⟨d, by rw [hidomfin]; exact hd1, hd2⟩
          · right
            have hsemiv : (semiStep n (bucketStep n s w) w).semi v = s.semi v := by
              rw [hsemifin, upd_other _ _ hvw]
            constructor
            · rw [hsD, hEP2.bucketEq]
              have hsame : semiD (semiStep n (bucketStep n s w) w).semi v =
                  semiD s.semi v := by
                rw [semiD, semiD, hsemiv]
              rw [hsame]
              by_cases hbM : semiD s.semi v = M
              · rw [hbM, upd_self]
                rw [← hbM]
                exact List.mem_append.mpr (Or.inl hm1)
              · rw [upd_other _ _ hbM]
                exact hm1
            · have hsame : semiD (semiStep n (bucketStep n s w) w).semi v =
                  semiD s.semi v := by
                rw [semiD, semiD, hsemiv]
              rw [hsame]
              omega
  · -- the minimum formula for claim C5
    intro hw0
    rw [solverStep_eq]
    dsimp only
    have hmapeq : (s.predecessors w).map
        (fun p => semiD s.semi (eval n s.ancestor s.label s.semi p).2) =
        (s.predecessors w).map
          (fun p => semiD s.semi (evalVal n s.ancestor s.label s.semi p)) := by
      refine List.map_congr_left ?_
      intro p hp
      have hpn : p < n := hinv.predBound w p hp
      have he := (@eval_spec s.ancestor s.label s.semi p n hinv.decr hpn).1
      rw [he]
    rw [hmapeq, hsD]
    obtain ⟨pw, hpw1, hpw2, hpw3⟩ := hinv.parentFacts w hw0 hwn
    have hEpw : semiD s.semi (evalVal n s.ancestor s.label s.semi pw) < w := by
      have h1 : semiD s.semi (evalVal n s.ancestor s.label s.semi pw) ≤ semiD s.semi pw :=
        evalVal_semiD_le hinv.decr hinv.labSemi pw n
      have h2 : s.semi pw = some pw := hinv.semiFix pw (by omega)
      have h3 : semiD s.semi pw = pw := by
        rw [semiD, h2]
        rfl
      omega
    have hfold : M = ((s.predecessors w).map
        (fun p => semiD s.semi (evalVal n s.ancestor s.label s.semi p))).foldl min w := by
      rw [hM, List.foldl_map]
    have hmem : semiD s.semi (evalVal n s.ancestor s.label s.semi pw) ∈
        (s.predecessors w).map
          (fun p => semiD s.semi (evalVal n s.ancestor s.label s.semi p)) :=
      List.mem_map_of_mem _ hpw3
    rcases hml : (s.predecessors w).map
        (fun p => semiD s.semi (evalVal n s.ancestor s.label s.semi p)) with _ | ⟨x, xs⟩
    · rw [hml] at hmem
      simp at hmem
    · have hcons : (x :: xs).min? = some (xs.foldl min x) := rfl
      rw [hcons]
      rw [hml] at hfold hmem
      have hshift : (x :: xs).foldl min w = min w (xs.foldl min x) := by
        rw [List.foldl_cons, foldlMin_shift]
      have hm0 : xs.foldl min x ≤ semiD s.semi (evalVal n s.ancestor s.label s.semi pw) := by
        rcases List.mem_cons.mp hmem with h1 | h1
        · rw [← h1]
          exact foldlMin_le_init xs _
        · exact foldlMin_le_mem xs x _ h1
      have hlt : xs.foldl min x < w := by omega
      have : M = xs.foldl min x := by
        rw [hfold, hshift]
        omega
      rw [this]

/-! ### Lemmas for the `semi[i] <= i` invariant (claim C7) -/

theorem init_semiLe : SemiLe initState := by
  intro i x hx
  simp [initState] at hx

theorem dfs_semiLe (g : Nat → List Nat) :
    ∀ (fuel v : Nat) (s : LTState), SemiLe s → SemiLe (dfs g fuel v s) := by
  intro fuel
  induction fuel with
  | zero => intro v s hs; rw [dfs]; exact hs
  | succ fuel ih =>
    intro v s hs
    rw [dfs]
    split
    · exact hs
    · refine foldlInv (P := SemiLe) _ ?_ (g v) _ ?_
      · intro t w ht
        dsimp only
        split
        · exact ih w _ ht
        · exact ht
      · intro i x hx
        dsimp only at hx
        by_cases hi : i = s.dfIdx
        · subst hi
          rw [upd_self] at hx
          injection hx with hx2
          omega
        · rw [upd_other _ _ hi] at hx
          exact hs i x hx

theorem bucketStep_semi (n : Nat) (s : LTState) (w : Nat) :
    (bucketStep n s w).semi = s.semi := by
  rw [bucketStep]
  refine foldlInv (P := fun t => t.semi = s.semi) _ ?_ (s.bucket w) s rfl
  intro t v ht
  dsimp only
  exact ht

theorem semiStep_semiLe (n w : Nat) (s : LTState) (hs : SemiLe s) :
    SemiLe (semiStep n s w) := by
  rw [semiStep]
  refine foldlInv (P := SemiLe) _ ?_ (s.predecessors w) s hs
  intro t v ht
  dsimp only
  split
  · next hlt =>
    intro i x hx
    dsimp only at hx
    by_cases hiw : i = w
    · subst hiw
      rw [upd_self] at hx
      injection hx with hx2
      simp only [semiD] at hx2 hlt
      rcases hy : t.semi i with _ | y
      · rw [hy] at hlt
        simp at hlt
      · have hyi : y ≤ i := ht i y hy
        rw [hy] at hlt
        simp only [Option.getD_some] at hlt
        omega
    · rw [upd_other _ _ hiw] at hx
      exact ht i x hx
  · exact fun i x hx => ht i x hx

theorem solverStep_semiLe (n w : Nat) (s : LTState) (hs : SemiLe s) :
    SemiLe (solverStep n s w) := by
  have h1 : SemiLe (bucketStep n s w) := by
    intro i x hx
    rw [bucketStep_semi] at hx
    exact hs i x hx
  have h2 : SemiLe (semiStep n (bucketStep n s w) w) := semiStep_semiLe n w _ h1
  exact fun i x hx => h2 i x hx

theorem ltd_semiLe (g : Nat → List Nat) (entry n : Nat) (p : LTState × (Nat → Option Nat))
    (h : lengauerTarjanDominator g entry n = some p) : SemiLe p.1 := by
  rw [lengauerTarjanDominator] at h
  split at h
  · injection h with h2
    subst h2
    dsimp only
    refine foldlInv (P := SemiLe) _ ?_ _ _ ?_
    · intro t a ht; exact solverStep_semiLe n a t ht
    · exact dfs_semiLe g (n + 1) entry initState init_semiLe
  · exact absurd h (by simp)

/-! ### Lemmas for the DFS access-index bound (claim C8) -/

theorem dfs_acc_le (g : Nat → List Nat) :
    ∀ (fuel v : Nat) (s : LTState), AccLe s → AccLe (dfs g fuel v s) := by
  intro fuel
  induction fuel with
  | zero => intro v s hs; rw [dfs]; exact hs
  | succ fuel ih =>
    intro v s hs
    rw [dfs]
    split
    · exact hs
    · refine foldlInv (P := AccLe) _ ?_ (g v) _ ?_
      · intro t w ht
        dsimp only
        split
        · refine ih w _ ?_
          intro a ha
          rcases List.mem_cons.mp ha with h | h
          · subst h; exact Nat.le_refl _
          · exact ht a h
        · intro a ha
          rcases List.mem_cons.mp ha with h | h
          · subst h; exact Nat.le_refl _
          · exact ht a h
      · intro a ha
        exact le_trans (hs a ha) (Nat.le_succ _)

/-! ### The DFS invariant and the growth of the traversal -/

theorem dfs_eq (g : Nat → List Nat) (fuel v : Nat) (s : LTState) :
    dfs g (fuel + 1) v s =
      if s.visited v then s else (g v).foldl (dfsF g fuel v) (dfsEnter v s) := rfl

theorem step4_eq (s : LTState) (l : List Nat) :
    step4 s l = l.foldl (step4F s) (upd s.idom 0 (some 0)) := rfl

theorem dfs_visited (g : Nat → List Nat) (fuel v : Nat) (s : LTState)
    (h : s.visited v = true) : dfs g fuel v s = s := by
  cases fuel with
  | zero => rfl
  | succ fuel => rw [dfs_eq, if_pos h]

theorem dfsF_eq (g : Nat → List Nat) (fuel v : Nat) (t : LTState) (w : Nat)
    (hsemi : t.semi t.dfIdx = none) :
    dfsF g fuel v t w = dfsLink v (dfs g fuel w (dfsPar v t)) w := by
  simp only [dfsF, dfsLink, dfsPar]
  rw [if_pos hsemi]

theorem dfsInv_init : DfsInv initState := by
  refine ⟨?_, ?_, ?_, ?_, ?_, ?_, ?_, ?_, ?_, ?_, ?_, ?_, ?_⟩
  · intro i hi
    simp [initState] at hi
  · intro i hi
    rfl
  · intro i hi
    simp [initState] at hi
  · intro x
    exact Nat.zero_le x
  · intro x
    rfl
  · intro x
    rfl
  · intro x
    rfl
  · intro i p hp
    exact Option.noConfusion hp
  · rfl
  · intro i p hp
    simp [initState] at hp
  · intro k j h
    exact Option.noConfusion h
  · intro i hi
    simp [initState] at hi
  · intro k
    simp [initState, mapFind]

theorem dfsEnter_inv {v : Nat} {s : LTState} (hs : DfsInv s) (hv : s.visited v = false) :
    DfsInv (dfsEnter v s) := by
  have hmv : mapFind s.vertexIndices v = none := by
    by_contra h
    have h2 := (hs.visMap v).mpr h
    rw [hv] at h2
    exact Bool.noConfusion h2
  refine ⟨?_, ?_, ?_, ?_, ?_, ?_, ?_, ?_, ?_, ?_, ?_, ?_, ?_⟩ <;> dsimp only [dfsEnter]
  · intro i hi
    by_cases hii : i = s.dfIdx
    · subst hii
      exact upd_self _ _ _
    · rw [upd_other _ _ hii]
      exact hs.semiIdx i (by omega)
  · intro i hi
    rw [upd_other _ _ (by omega : i ≠ s.dfIdx)]
    exact hs.semiAbove i (by omega)
  · intro i hi
    by_cases hii : i = s.dfIdx
    · subst hii
      exact upd_self _ _ _
    · rw [upd_other _ _ hii]
      exact hs.labIdx i (by omega)
  · intro x
    by_cases hx : x = s.dfIdx
    · subst hx
      rw [upd_self]
    · rw [upd_other _ _ hx]
      exact hs.labLe x
  · exact hs.ancNone
  · exact hs.buckNil
  · exact hs.idomNone
  · exact hs.parentLt
  · exact hs.parentZero
  · intro i p hp
    have h2 := hs.predLt i p hp
    omega
  · intro k j hkj
    by_cases hk : k = v
    · subst hk
      rw [mapFind_mapAssign_self] at hkj
      injection hkj with hj
      subst hj
      exact ⟨by omega, upd_self _ _ _⟩
    · rw [mapFind_mapAssign_other _ _ hk] at hkj
      obtain ⟨h1, h2⟩ := hs.mapRange k j hkj
      exact ⟨by omega, by rw [upd_other _ _ (by omega : j ≠ s.dfIdx)]; exact h2⟩
  · intro i hi
    by_cases hii : i = s.dfIdx
    · subst hii
      rw [upd_self]
      exact mapFind_mapAssign_self _ _ _
    · rw [upd_other _ _ hii]
      have hne : s.vertices i ≠ v := by
        intro he
        have h2 := hs.mapVert i (by omega)
        rw [he, hmv] at h2
        exact Option.noConfusion h2
      rw [mapFind_mapAssign_other _ _ hne]
      exact hs.mapVert i (by omega)
  · intro k
    by_cases hk : k = v
    · subst hk
      rw [upd_self, mapFind_mapAssign_self]
      simp
    · rw [upd_other _ _ hk, mapFind_mapAssign_other _ _ hk]
      exact hs.visMap k

theorem dfsStep_refl {t : LTState} (ht : DfsInv t) : DfsStep t t :=
  ⟨ht, Nat.le_refl _, fun _ _ => rfl, fun _ _ hp => hp, fun _ _ hk => hk,
    fun _ h1 h2 => absurd h2 (Nat.not_lt.mpr h1)⟩

theorem dfsStep_trans {t u r : LTState} (h1 : DfsStep t u) (h2 : DfsStep u r) :
    DfsStep t r := by
  refine ⟨h2.inv, Nat.le_trans h1.dfle h2.dfle, ?_, ?_, ?_, ?_⟩
  · intro i hi
    rw [h2.parentStable i (Nat.lt_of_lt_of_le hi h1.dfle), h1.parentStable i hi]
  · intro i p hp
    exact h2.predGrow i p (h1.predGrow i p hp)
  · intro k j hk
    exact h2.mapGrow k j (h1.mapGrow k j hk)
  · intro i hti hir
    by_cases hu : i < u.dfIdx
    · obtain ⟨p, hp1, hp2⟩ := h1.rootFix i hti hu
      exact ⟨p, by rw [h2.parentStable i hu]; exact hp1, h2.predGrow i p hp2⟩
    · exact h2.rootFix i (by omega) hir

theorem dfs_step {g : Nat → List Nat} {fuel : Nat}
    (ih : ∀ (u : Nat) (s : LTState), DfsInv s →
      DfsInv (dfs g fuel u s) ∧ DfsGrow u fuel s (dfs g fuel u s))
    {v vidx : Nat} {t : LTState} (ht : DfsInv t)
    (hm : mapFind t.vertexIndices v = some vidx) (hvi : vidx < t.dfIdx) (w : Nat) :
    DfsStep t (dfsF g fuel v t w) ∧
      mapFind (dfsF g fuel v t w).vertexIndices v = some vidx := by
  have hvx : idxD t.vertexIndices v = vidx := by
    rw [idxD, hm]
    rfl
  have hsemi : t.semi t.dfIdx = none := ht.semiAbove t.dfIdx (Nat.le_refl _)
  rw [dfsF_eq g fuel v t w hsemi]
  have hparInv : DfsInv (dfsPar v t) := by
    refine ⟨ht.semiIdx, ht.semiAbove, ht.labIdx, ht.labLe, ht.ancNone, ht.buckNil,
      ht.idomNone, ?_, ?_, ht.predLt, ht.mapRange, ht.mapVert, ht.visMap⟩
    · intro i p hp
      by_cases hit : i = t.dfIdx
      · subst hit
        have hp2 : upd t.parent t.dfIdx (some (idxD t.vertexIndices v)) t.dfIdx = some p := hp
        rw [upd_self] at hp2
        injection hp2 with hp3
        rw [hvx] at hp3
        omega
      · have hp2 : upd t.parent t.dfIdx (some (idxD t.vertexIndices v)) i = some p := hp
        rw [upd_other _ _ hit] at hp2
        exact ht.parentLt i p hp2
    · show upd t.parent t.dfIdx (some (idxD t.vertexIndices v)) 0 = none
      rw [upd_other _ _ (by omega : (0 : Nat) ≠ t.dfIdx)]
      exact ht.parentZero
  obtain ⟨hInv1, hGrow1⟩ := ih w (dfsPar v t) hparInv
  set r1 : LTState := dfs g fuel w (dfsPar v t) with hr1
  have hmv1 : mapFind r1.vertexIndices v = some vidx := hGrow1.mapGrow v vidx hm
  have hvx1 : idxD r1.vertexIndices v = vidx := by
    rw [idxD, hmv1]
    rfl
  have hdfle : t.dfIdx ≤ r1.dfIdx := hGrow1.dfle
  have h0t : 0 < t.dfIdx := by omega
  have hiw : idxD r1.vertexIndices w < r1.dfIdx := by
    rcases hfw : mapFind r1.vertexIndices w with _ | j
    · rw [idxD, hfw]
      exact Nat.lt_of_lt_of_le h0t hdfle
    · rw [idxD, hfw]
      exact (hInv1.mapRange w j hfw).1
  have hLpar : (dfsLink v r1 w).parent = r1.parent := rfl
  have hLidx : (dfsLink v r1 w).dfIdx = r1.dfIdx := rfl
  have hLmap : (dfsLink v r1 w).vertexIndices = r1.vertexIndices := rfl
  have hLpred : (dfsLink v r1 w).predecessors =
      upd r1.predecessors (idxD r1.vertexIndices w)
        (setInsert vidx (r1.predecessors (idxD r1.vertexIndices w))) := by
    dsimp only [dfsLink]
    rw [hvx1]
  constructor
  · refine ⟨?_, ?_, ?_, ?_, ?_, ?_⟩
    · -- the invariant transfers to the state after the predecessor insert
      refine ⟨hInv1.semiIdx, hInv1.semiAbove, hInv1.labIdx, hInv1.labLe, hInv1.ancNone,
        hInv1.buckNil, hInv1.idomNone, hInv1.parentLt, hInv1.parentZero, ?_,
        hInv1.mapRange, hInv1.mapVert, hInv1.visMap⟩
      intro i p hp
      rw [hLpred] at hp
      rw [hLidx]
      by_cases hi : i = idxD r1.vertexIndices w
      · subst hi
        rw [upd_self] at hp
        rcases mem_setInsert vidx p _ hp with h1 | h1
        · exact ⟨by omega, hiw⟩
        · exact hInv1.predLt _ p h1
      · rw [upd_other _ _ hi] at hp
        exact hInv1.predLt i p hp
    · rw [hLidx]
      exact hdfle
    · intro i hi
      rw [hLpar]
      have h1 := hGrow1.parentStable i (Nat.le_of_lt hi)
      rw [h1]
      show upd t.parent t.dfIdx (some (idxD t.vertexIndices v)) i = t.parent i
      exact upd_other _ _ (by omega)
    · intro i p hp
      rw [hLpred]
      have hp1 : p ∈ r1.predecessors i := hGrow1.predGrow i p hp
      by_cases hi : i = idxD r1.vertexIndices w
      · subst hi
        rw [upd_self]
        exact setInsert_mem_of_mem _ _ _ hp1
      · rw [upd_other _ _ hi]
        exact hp1
    · intro k j hk
      rw [hLmap]
      exact hGrow1.mapGrow k j hk
    · intro i hti hir
      rw [hLidx] at hir
      rw [hLpar, hLpred]
      rcases hGrow1.rootFix i hti hir with h1 | ⟨p, hp1, hp2⟩
      · have h1' : i = t.dfIdx := h1
        subst h1'
        rcases Nat.eq_zero_or_pos fuel with hf0 | hfp
        · subst hf0
          have hcontr : r1.dfIdx = t.dfIdx := by
            rw [hr1]
            rfl
          omega
        · cases hbw : t.visited w with
          | true =>
            have hsame : r1 = dfsPar v t := by
              rw [hr1]
              exact dfs_visited g fuel w _ hbw
            have hcontr : r1.dfIdx = t.dfIdx := by
              rw [hsame]
              rfl
            omega
          | false =>
            obtain ⟨hfm, hflt⟩ := hGrow1.freshClaim hbw hfp
            have hiwt : idxD r1.vertexIndices w = t.dfIdx := by
              rw [idxD, hfm]
              rfl
            have hpar : r1.parent t.dfIdx = some vidx := by
              have h2 := hGrow1.parentStable t.dfIdx (Nat.le_refl _)
              rw [h2]
              show upd t.parent t.dfIdx (some (idxD t.vertexIndices v)) t.dfIdx = some vidx
              rw [upd_self, hvx]
            refine ⟨vidx, hpar, ?_⟩
            rw [hiwt, upd_self]
            exact setInsert_mem_self _ _
      · refine ⟨p, hp1, ?_⟩
        by_cases hi : i = idxD r1.vertexIndices w
        · rw [hi] at hp2
          rw [hi, upd_self]
          exact setInsert_mem_of_mem _ _ _ hp2
        · rw [upd_other _ _ hi]
          exact hp2
  · rw [hLmap]
    exact hmv1

theorem dfs_fold {g : Nat → List Nat} {fuel : Nat}
    (ih : ∀ (u : Nat) (s : LTState), DfsInv s →
      DfsInv (dfs g fuel u s) ∧ DfsGrow u fuel s (dfs g fuel u s))
    {v vidx : Nat} :
    ∀ (l : List Nat) (t : LTState), DfsInv t →
      mapFind t.vertexIndices v = some vidx → vidx < t.dfIdx →
      DfsStep t (l.foldl (dfsF g fuel v) t) ∧
        mapFind (l.foldl (dfsF g fuel v) t).vertexIndices v = some vidx := by
  intro l
  induction l with
  | nil =>
    intro t ht hm hvi
    exact ⟨dfsStep_refl ht, hm⟩
  | cons w ws ihl =>
    intro t ht hm hvi
    obtain ⟨hstep, hmap⟩ := dfs_step ih ht hm hvi w
    have hvi2 : vidx < (dfsF g fuel v t w).dfIdx := Nat.lt_of_lt_of_le hvi hstep.dfle
    obtain ⟨hrest, hmap2⟩ := ihl (dfsF g fuel v t w) hstep.inv hmap hvi2
    exact ⟨dfsStep_trans hstep hrest, hmap2⟩

theorem dfs_main (g : Nat → List Nat) : ∀ (fuel : Nat) (v : Nat) (s : LTState),
    DfsInv s → DfsInv (dfs g fuel v s) ∧ DfsGrow v fuel s (dfs g fuel v s) := by
  intro fuel
  induction fuel with
  | zero =>
    intro v s hs
    exact ⟨hs, Nat.le_refl _, fun _ _ => rfl, fun _ _ hp => hp, fun _ _ hk => hk,
      fun _ h1 h2 => absurd h2 (Nat.not_lt.mpr h1), fun _ h0 => absurd h0 (Nat.lt_irrefl 0)⟩
  | succ fuel ih =>
    intro v s hs
    cases hvis : s.visited v with
    | true =>
      rw [dfs_visited g (fuel + 1) v s hvis]
      refine ⟨hs, Nat.le_refl _, fun _ _ => rfl, fun _ _ hp => hp, fun _ _ hk => hk,
        fun _ h1 h2 => absurd h2 (Nat.not_lt.mpr h1), fun hv0 _ => ?_⟩
      rw [hvis] at hv0
      exact Bool.noConfusion hv0
    | false =>
      rw [dfs_eq, if_neg (by rw [hvis]; exact Bool.false_ne_true)]
      have hsInv : DfsInv (dfsEnter v s) := dfsEnter_inv hs hvis
      have hm0 : mapFind (dfsEnter v s).vertexIndices v = some s.dfIdx := by
        show mapFind (mapAssign s.vertexIndices v s.dfIdx) v = some s.dfIdx
        exact mapFind_mapAssign_self _ _ _
      have hvi0 : s.dfIdx < (dfsEnter v s).dfIdx := by
        show s.dfIdx < s.dfIdx + 1
        omega
      obtain ⟨hstep, hmapv⟩ := dfs_fold ih (g v) (dfsEnter v s) hsInv hm0 hvi0
      set r : LTState := (g v).foldl (dfsF g fuel v) (dfsEnter v s) with hrdef
      have hdfle1 : s.dfIdx + 1 ≤ r.dfIdx := hstep.dfle
      refine ⟨hstep.inv, ?_, ?_, ?_, ?_, ?_, ?_⟩
      · omega
      · intro i hi
        have h1 : r.parent i = (dfsEnter v s).parent i :=
          hstep.parentStable i (by omega : i < s.dfIdx + 1)
        rw [h1]
        rfl
      · intro i p hp
        exact hstep.predGrow i p hp
      · intro k j hk
        have hnone : mapFind s.vertexIndices v = none := by
          by_contra h
          have h2 := (hs.visMap v).mpr h
          rw [hvis] at h2
          exact Bool.noConfusion h2
        have hkv : k ≠ v := by
          intro he
          rw [he, hnone] at hk
          exact Option.noConfusion hk
        have hk1 : mapFind (dfsEnter v s).vertexIndices k = some j := by
          show mapFind (mapAssign s.vertexIndices v s.dfIdx) k = some j
          rw [mapFind_mapAssign_other _ _ hkv]
          exact hk
        exact hstep.mapGrow k j hk1
      · intro i h1 h2
        by_cases hieq : i = s.dfIdx
        · exact Or.inl hieq
        · exact Or.inr (hstep.rootFix i (by omega : s.dfIdx + 1 ≤ i) h2)
      · intro _ _
        exact ⟨hmapv, by omega⟩

/-! ### From the DFS post-state through the reverse pass to step 4 -/

theorem solveInv_base {g : Nat → List Nat} {entry n : Nat}
    (hdf : (dfs g (n + 1) entry initState).dfIdx = n) :
    SolveInv n n (dfs g (n + 1) entry initState) := by
  obtain ⟨hinv, hgrow⟩ := dfs_main g (n + 1) entry initState dfsInv_init
  set s1 := dfs g (n + 1) entry initState with hs1
  refine ⟨?_, ?_, ?_, ?_, ?_, ?_, ?_, ?_, ?_, ?_, ?_, ?_, ?_, ?_, ?_⟩
  · intro x a hx
    rw [hinv.ancNone x] at hx
    exact Option.noConfusion hx
  · intro x
    refine iff_of_false (fun h => h (hinv.ancNone x)) (by omega)
  · intro x hx
    exact absurd (hinv.ancNone x) hx
  · intro x hxn _
    exact hinv.labIdx x (by omega)
  · exact hinv.labLe
  · intro x hx
    exact absurd (hinv.ancNone x) hx
  · intro i hi
    exact hinv.semiIdx i (by omega)
  · intro i x hx
    by_cases hi : i < s1.dfIdx
    · have h2 := hinv.semiIdx i hi
      rw [h2] at hx
      injection hx with h3
      omega
    · have h2 := hinv.semiAbove i (by omega)
      rw [h2] at hx
      exact Option.noConfusion hx
  · intro i hi
    rw [hinv.semiIdx i (by omega)]
    exact Option.noConfusion
  · intro i h0 hin
    rcases hgrow.rootFix i (Nat.zero_le i) (by omega) with h | ⟨p, hp1, hp2⟩
    · have h2 : i = 0 := h
      omega
    · exact ⟨p, hp1, (hinv.parentLt i p hp1).2, hp2⟩
  · exact hinv.parentZero
  · intro i p hp
    have h2 := hinv.predLt i p hp
    omega
  · intro b w hw
    rw [hinv.buckNil b] at hw
    simp at hw
  · intro w d hd
    rw [hinv.idomNone w] at hd
    exact Option.noConfusion hd
  · intro vv h1 h2 h3
    omega

theorem solve_run {g : Nat → List Nat} {entry n : Nat}
    (hdf : (dfs g (n + 1) entry initState).dfIdx = n) :
    ∀ (k m : Nat), m + k = n →
      SolveInv n m ((descRange n m).foldl (solverStep n) (dfs g (n + 1) entry initState)) := by
  intro k
  induction k with
  | zero =>
    intro m hm
    have hmn : m = n := by omega
    subst hmn
    rw [descRange_self]
    exact solveInv_base hdf
  | succ k ihk =>
    intro m hm
    have hmn : m < n := by omega
    rw [descRange_split n m hmn, List.foldl_append]
    exact (solverStep_inv (ihk (m + 1) (by omega)) hmn).1

theorem solverStep_frame (n w : Nat) (s : LTState) :
    (solverStep n s w).vertices = s.vertices ∧
    (solverStep n s w).vertexIndices = s.vertexIndices := by
  have hb : ∀ (l : List Nat) (t : LTState),
      t.vertices = s.vertices ∧ t.vertexIndices = s.vertexIndices →
      (l.foldl (bucketF n w) t).vertices = s.vertices ∧
        (l.foldl (bucketF n w) t).vertexIndices = s.vertexIndices := by
    intro l
    induction l with
    | nil => intro t ht; exact ht
    | cons x xs ihl => intro t ht; exact ihl _ ht
  have hsm : ∀ (l : List Nat) (t : LTState),
      t.vertices = s.vertices ∧ t.vertexIndices = s.vertexIndices →
      (l.foldl (semiF n w) t).vertices = s.vertices ∧
        (l.foldl (semiF n w) t).vertexIndices = s.vertexIndices := by
    intro l
    induction l with
    | nil => intro t ht; exact ht
    | cons x xs ihl =>
      intro t ht
      refine ihl _ ?_
      have h2 : (semiF n w t x).vertices = t.vertices ∧
          (semiF n w t x).vertexIndices = t.vertexIndices := by
        dsimp only [semiF]
        split
        · exact ⟨rfl, rfl⟩
        · exact ⟨rfl, rfl⟩
      exact ⟨h2.1.trans ht.1, h2.2.trans ht.2⟩
  have h1 := hb (s.bucket w) s ⟨rfl, rfl⟩
  rw [← bucketStep_eq] at h1
  have h2 := hsm ((bucketStep n s w).predecessors w) (bucketStep n s w) h1
  rw [← semiStep_eq] at h2
  rw [solverStep_eq]
  exact h2

theorem solve_run_frame (n : Nat) :
    ∀ (l : List Nat) (s : LTState),
      (l.foldl (solverStep n) s).vertices = s.vertices ∧
        (l.foldl (solverStep n) s).vertexIndices = s.vertexIndices := by
  intro l
  induction l with
  | nil => intro s; exact ⟨rfl, rfl⟩
  | cons x xs ihl =>
    intro s
    have h1 := solverStep_frame n x s
    have h2 := ihl (solverStep n s x)
    exact ⟨h2.1.trans h1.1, h2.2.trans h1.2⟩

theorem solver_order {g : Nat → List Nat} {entry n : Nat}
    (hdf : (dfs g (n + 1) entry initState).dfIdx = n) :
    (((List.range n).map (dfs g (n + 1) entry initState).vertices).reverse).map
      (idxD (dfs g (n + 1) entry initState).vertexIndices) = descRange n 0 := by
  obtain ⟨hinv, _⟩ := dfs_main g (n + 1) entry initState dfsInv_init
  set s1 := dfs g (n + 1) entry initState with hs1
  rw [List.reverse_map, List.map_map]
  have h2 : ∀ x ∈ (List.range n).reverse,
      (idxD s1.vertexIndices ∘ s1.vertices) x = x := by
    intro x hx
    have hxn : x < n := List.mem_range.mp (List.mem_reverse.mp hx)
    have h3 := hinv.mapVert x (by omega)
    show idxD s1.vertexIndices (s1.vertices x) = x
    rw [idxD, h3]
    rfl
  rw [List.map_congr_left h2, List.map_id', range_reverse_eq_descRange]

theorem mem_range_drop {n x : Nat} (hx : x ∈ (List.range n).drop 1) : 0 < x ∧ x < n := by
  cases n with
  | zero => simp [List.range_zero] at hx
  | succ n =>
    rw [List.range_succ_eq_map] at hx
    simp only [List.drop_succ_cons, List.drop_zero] at hx
    obtain ⟨y, hy1, hy2⟩ := List.mem_map.mp hx
    have h2 := List.mem_range.mp hy1
    omega

theorem step4_main (s : LTState) (n : Nat)
    (hbase : ∀ i, 0 < i → i < n → ∃ d, s.idom i = some d ∧ d < i) :
    ∀ (l : List Nat), (∀ x ∈ l, 0 < x ∧ x < n) →
      step4 s l 0 = some 0 ∧
      ∀ i, 0 < i → i < n → ∃ d, step4 s l i = some d ∧ d < i := by
  intro l hl
  rw [step4_eq]
  have hstep : ∀ (idm : Nat → Option Nat) (w : Nat), w ∈ l →
      (idm 0 = some 0 ∧ ∀ i, 0 < i → i < n → ∃ d, idm i = some d ∧ d < i) →
      (step4F s idm w 0 = some 0 ∧
        ∀ i, 0 < i → i < n → ∃ d, step4F s idm w i = some d ∧ d < i) := by
    intro idm w hw hP
    obtain ⟨hw0, hwn⟩ := hl w hw
    dsimp only [step4F]
    split
    · obtain ⟨d, hd1, hd2⟩ := hP.2 w hw0 hwn
      constructor
      · rw [upd_other _ _ (by omega : (0 : Nat) ≠ w)]
        exact hP.1
      · intro i h0 hi
        by_cases hiw : i = w
        · subst hiw
          rw [upd_self, hd1]
          rcases Nat.eq_zero_or_pos d with hd0 | hdp
          · subst hd0
            exact ⟨0, hP.1, h0⟩
          · obtain ⟨e, he1, he2⟩ := hP.2 d hdp (by omega)
            exact ⟨e, he1, by omega⟩
        · rw [upd_other _ _ hiw]
          exact hP.2 i h0 hi
    · exact hP
  have hbase2 : upd s.idom 0 (some 0) 0 = some 0 ∧
      ∀ i, 0 < i → i < n → ∃ d, upd s.idom 0 (some 0) i = some d ∧ d < i := by
    constructor
    · exact upd_self _ _ _
    · intro i h0 hi
      rw [upd_other _ _ (by omega : i ≠ 0)]
      exact hbase i h0 hi
  exact foldlInvMem (step4F s) l hstep (upd s.idom 0 (some 0)) hbase2

/-! ### Claim theorems -/

/-- Claim C1 (code bug): the claim says that every reachable non-entry DFS
index `w` is appended to the children list keyed by `idom[w]`.  The code of
`buildDominatorTree` instead executes
`m_dominatorTree[idomIdx].emplace_back(idomIdx)`, appending the key itself.
On the chain graph `10 → 11 → 12 → 13` (immediate dominators `[0, 0, 1, 2]`)
the built tree is `{0 ↦ [0], 1 ↦ [1], 2 ↦ [2]}`: index `1` does not appear
under its immediate dominator `0` (and likewise for `2` and `3`), and index
`3` appears as a child nowhere at all. -/
theorem buildDominatorTree_chain_bug :
    (mkDominator chainG 10 4).map (·.immediateDominators) = some [0, 0, 1, 2] ∧
    (mkDominator chainG 10 4).map (·.dominatorTree) = some [(0, [0]), (1, [1]), (2, [2])] ∧
    (mkDominator chainG 10 4).map (fun d =>
      decide (1 ∈ treeChildren d.dominatorTree 0) ||
      decide (2 ∈ treeChildren d.dominatorTree 1) ||
      decide (3 ∈ treeChildren d.dominatorTree 2)) = some false ∧
    (mkDominator chainG 10 4).map (fun d =>
      decide (3 ∈ treeChildren d.dominatorTree 0) ||
      decide (3 ∈ treeChildren d.dominatorTree 1) ||
      decide (3 ∈ treeChildren d.dominatorTree 2) ||
      decide (3 ∈ treeChildren d.dominatorTree 3)) = some false := by
  exact ⟨by decide, by decide, by decide, by decide⟩

/-- Claim C2 (counterexample): on the chain graph `10 → 11 → 12 → 13`,
`dominatorsOf(13)` returns `[10, 12, 11]`.  The vertex whose DFS index is
`idom[13]` is `12`, but the returned sequence ends at `11`, so the sequence
neither increases in depth after the entry nor ends at the immediate
dominator as the claim states; moreover `dominatorsOf(10)` returns `[10]`,
which contains the queried vertex itself. -/
theorem dominatorsOf_order_counterexample :
    ((mkDominator chainG 10 4).bind (fun d => (d.dominatorsOf 13).map (·.2)) =
      some [10, 12, 11]) ∧
    ((mkDominator chainG 10 4).map (fun d =>
      d.vertices.getD (d.immediateDominators.getD (idxD d.vertexIndices 13) 0) 0) =
      some 12) ∧
    (([10, 12, 11] : List Nat).getLast? = some 11 ∧ (11 : Nat) ≠ 12) ∧
    ((mkDominator chainG 10 4).bind
      (fun d => (d.dominatorsOf 10).map (fun r => decide (10 ∈ r.2))) = some true) := by
  exact ⟨by decide, by decide, by decide, by decide⟩

/-- Claim C2 (amended): for an indexed vertex `v` of a well-formed structure,
`dominatorsOf(v)` returns the entry vertex followed by the proper dominators
of `v` strictly between the entry and `v`, ordered from `v`'s immediate
dominator upward (each element after the first maps, via `idom`, from the
previous one, with strictly decreasing DFS index, i.e. strictly decreasing
depth), ending at the dominator whose immediate dominator is the entry;
for `v` other than the entry, `v` never appears in the result, while for
the entry vertex the result is `[entry]` (which does contain it). -/
theorem dominatorsOf_characterization (d : DomFinder) (v vIdx : Nat)
    (hsort : SortedKeys d.vertexIndices)
    (hv : mapFind d.vertexIndices v = some vIdx)
    (hne : d.vertices ≠ [])
    (hL : vIdx < d.immediateDominators.length)
    (hlen : d.vertices.length = d.immediateDominators.length)
    (hvpos : d.vertices.getD vIdx 0 = v)
    (hinj : ∀ j, j < d.vertices.length → d.vertices.getD j 0 = v → j = vIdx)
    (hidom : ∀ i, i < d.immediateDominators.length → 0 < i →
      d.immediateDominators.getD i 0 < i)
    (h0 : d.immediateDominators.getD 0 0 = 0) :
    ((d.dominatorsOf v).map (·.2) =
      some (d.vertices.getD 0 0 ::
        (idomChain d.immediateDominators d.immediateDominators.length
          (d.immediateDominators.getD vIdx 0)).map (fun j => d.vertices.getD j 0))) ∧
    (∀ y, (idomChain d.immediateDominators d.immediateDominators.length
        (d.immediateDominators.getD vIdx 0)).head? = some y →
      y = d.immediateDominators.getD vIdx 0) ∧
    List.Chain' (fun x y => y = d.immediateDominators.getD x 0 ∧ y < x)
      (idomChain d.immediateDominators d.immediateDominators.length
        (d.immediateDominators.getD vIdx 0)) ∧
    (∀ x ∈ idomChain d.immediateDominators d.immediateDominators.length
        (d.immediateDominators.getD vIdx 0), 0 < x ∧ x < vIdx) ∧
    (∀ x, (idomChain d.immediateDominators d.immediateDominators.length
        (d.immediateDominators.getD vIdx 0)).getLast? = some x →
      d.immediateDominators.getD x 0 = 0) ∧
    (vIdx ≠ 0 →
      v ∉ (d.vertices.getD 0 0 ::
        (idomChain d.immediateDominators d.immediateDominators.length
          (d.immediateDominators.getD vIdx 0)).map (fun j => d.vertices.getD j 0))) ∧
    (vIdx = 0 → (d.dominatorsOf v).map (·.2) = some [v]) := by
  have hidom' : ∀ i, 0 < i → i < d.immediateDominators.length →
      d.immediateDominators.getD i 0 < i := fun i h1 h2 => hidom i h2 h1
  have hLpos : 0 < d.immediateDominators.length := by omega
  have hi0 : d.immediateDominators.getD vIdx 0 < d.immediateDominators.length := by
    by_cases hz : vIdx = 0
    · rw [hz, h0]; omega
    · have := hidom' vIdx (Nat.pos_of_ne_zero hz) hL; omega
  have hmain : (d.dominatorsOf v).map (·.2) =
      some (d.vertices.getD 0 0 ::
        (idomChain d.immediateDominators d.immediateDominators.length
          (d.immediateDominators.getD vIdx 0)).map (fun j => d.vertices.getD j 0)) := by
    simp only [DomFinder.dominatorsOf, if_neg hne, mapGetOrInsert_present hsort hv]
    by_cases hz : d.immediateDominators.getD vIdx 0 = 0
    · rw [if_pos hz, hz, idomChain_zero]
      simp
    · rw [if_neg hz]
      simp
  have hbound : ∀ x ∈ idomChain d.immediateDominators d.immediateDominators.length
      (d.immediateDominators.getD vIdx 0), 0 < x ∧ x < vIdx := by
    intro x hx
    refine ⟨idomChain_pos _ _ x hx, ?_⟩
    by_cases hz : vIdx = 0
    · rw [hz, h0, idomChain_zero] at hx
      simp at hx
    · have h1 : x ≤ d.immediateDominators.getD vIdx 0 := idomChain_le hidom' _ _ hi0 x hx
      have h2 := hidom' vIdx (Nat.pos_of_ne_zero hz) hL
      omega
  refine ⟨hmain, ?_, ?_, hbound, ?_, ?_, ?_⟩
  · intro y hy
    exact idomChain_head _ _ y hy
  · exact idomChain_chain' hidom' _ _ hi0
  · intro x hx
    exact idomChain_last hidom' _ _ hi0 hi0 x hx
  · intro hnz hmem
    rcases List.mem_cons.mp hmem with h | h
    · have := hinj 0 (by omega) h.symm
      omega
    · rcases List.mem_map.mp h with ⟨x, hx, hvx⟩
      have hb := hbound x hx
      have := hinj x (by omega) hvx
      omega
  · intro hz
    rw [hmain, hz, h0, idomChain_zero]
    rw [hz] at hvpos
    rw [hvpos]
    rfl

/-- Claim C3: `dominates(a, b)` returns `true` exactly when the two indices
are equal, or `a`'s index is met while walking the immediate-dominator chain
upward from `b`, or the walk reaches the entry and `a` is the entry
(index `0`). -/
theorem dominates_characterization (d : DomFinder) (a b aIdx bIdx : Nat)
    (hsort : SortedKeys d.vertexIndices)
    (ha : mapFind d.vertexIndices a = some aIdx)
    (hb : mapFind d.vertexIndices b = some bIdx)
    (hL : bIdx < d.immediateDominators.length)
    (hidom : ∀ i, i < d.immediateDominators.length → 0 < i →
      d.immediateDominators.getD i 0 < i)
    (h0 : d.immediateDominators.getD 0 0 = 0) :
    ((d.dominates a b).2 = true ↔
      aIdx = bIdx ∨
      aIdx ∈ idomChain d.immediateDominators d.immediateDominators.length
        (d.immediateDominators.getD bIdx 0) ∨
      aIdx = 0) := by
  have hidom' : ∀ i, 0 < i → i < d.immediateDominators.length →
      d.immediateDominators.getD i 0 < i := fun i h1 h2 => hidom i h2 h1
  have hi0 : d.immediateDominators.getD bIdx 0 < d.immediateDominators.length := by
    by_cases hz : bIdx = 0
    · rw [hz, h0]; omega
    · have := hidom' bIdx (Nat.pos_of_ne_zero hz) hL; omega
  simp only [DomFinder.dominates, mapGetOrInsert_present hsort ha,
    mapGetOrInsert_present hsort hb]
  by_cases hab : aIdx = bIdx
  · simp [hab]
  · rw [if_neg hab]
    dsimp only
    rw [dominatesWalk_iff hidom' _ _ hi0 hi0]
    constructor
    · rintro (h | h)
      · exact Or.inr (Or.inl h)
      · exact Or.inr (Or.inr h)
    · rintro (h | h | h)
      · exact absurd h hab
      · exact Or.inl h
      · exact Or.inr h

/-- Witness for claim C3 at a concrete structure: in the chain structure,
`dominates(11, 13)` is `true` because index `1` lies on the
immediate-dominator chain of index `3`. -/
theorem dominates_characterization_witness :
    ((DomFinder.mk [10, 11, 12, 13] [(10, 0), (11, 1), (12, 2), (13, 3)] [0, 0, 1, 2]
        [(0, [0]), (1, [1]), (2, [2])]).dominates 11 13).2 = true :=
  (dominates_characterization _ 11 13 1 3 (by decide) (by decide) (by decide) (by decide)
      (by decide) (by decide)).mpr (by decide)

/-- Witness for claim C2 at a concrete structure: the characterization
applied to the chain structure at vertex `13` evaluates to `[10, 12, 11]`. -/
theorem dominatorsOf_characterization_witness :
    (((DomFinder.mk [10, 11, 12, 13] [(10, 0), (11, 1), (12, 2), (13, 3)] [0, 0, 1, 2]
        [(0, [0]), (1, [1]), (2, [2])]).dominatorsOf 13).map (·.2)) = some [10, 12, 11] := by
  have h := dominatorsOf_characterization
    (DomFinder.mk [10, 11, 12, 13] [(10, 0), (11, 1), (12, 2), (13, 3)] [0, 0, 1, 2]
      [(0, [0]), (1, [1]), (2, [2])]) 13 3
    (by decide) (by decide) (by decide) (by decide) (by decide) (by decide) (by decide)
    (by decide) (by decide)
  exact h.1.trans (by decide)

/-- Claim C4: on the diamond graph `20 → {21, 22}`, `21 → 23`, `22 → 23`,
analysed from entry `20` with exact vertex count `4`: the vertex whose DFS
index is `idom[idx 23]` is the entry `20`, `dominates(21, 23)` and
`dominates(22, 23)` are `false`, and `dominates(20, 23)` is `true`. -/
theorem diamond_analysis :
    (mkDominator diamondG 20 4).map (fun d =>
      (d.vertices.getD (d.immediateDominators.getD (idxD d.vertexIndices 23) 0) 0,
       (d.dominates 21 23).2, (d.dominates 22 23).2, (d.dominates 20 23).2)) =
      some (20, false, false, true) := by
  decide

/-- Claim C7: `semi[i] <= i` holds for every assigned cell: in the initial
state (vacuously), after any call of the DFS from any state satisfying it,
after every single iteration of the reverse pass from any state satisfying
it, and in the final state of the whole computation. -/
theorem semi_le_invariant :
    SemiLe initState ∧
    (∀ (g : Nat → List Nat) (fuel v : Nat) (s : LTState), SemiLe s → SemiLe (dfs g fuel v s)) ∧
    (∀ (n w : Nat) (s : LTState), SemiLe s → SemiLe (solverStep n s w)) ∧
    (∀ (g : Nat → List Nat) (entry n : Nat) (p : LTState × (Nat → Option Nat)),
      lengauerTarjanDominator g entry n = some p → SemiLe p.1) :=
  ⟨init_semiLe, dfs_semiLe, fun n w s hs => solverStep_semiLe n w s hs, ltd_semiLe⟩

/-- Witness for claim C7: the invariant instantiated on concrete runs of the
DFS, of one solver iteration, and of the full analysis. -/
theorem semi_le_invariant_witness :
    SemiLe (dfs chainG 5 10 initState) ∧
    SemiLe (solverStep 4 (dfs chainG 5 10 initState) 3) ∧
    SemiLe ((lengauerTarjanDominator cycleG 30 2).getD (initState, fun _ => none)).1 :=
  ⟨semi_le_invariant.2.1 chainG 5 10 initState semi_le_invariant.1,
   semi_le_invariant.2.2.1 4 3 _ (semi_le_invariant.2.1 chainG 5 10 initState semi_le_invariant.1),
   semi_le_invariant.2.2.2 cycleG 30 2 _ rfl⟩

/-- Claim C8 (counterexample): on the two-cycle `30 → 31 → 30` analysed with
`numVertices = 2` (equal to the reachable count, hence a legal bound), the
unvisited-successor test of the DFS reads `semi[2]`, one past the end of the
preallocated arrays: index `2` is recorded in the access trace and is not
strictly less than `numVertices`. -/
theorem dfs_access_counterexample :
    (dfs cycleG (2 + 1) 30 initState).dfIdx = 2 ∧
    2 ∈ (dfs cycleG (2 + 1) 30 initState).accesses ∧ ¬ (2 < 2) := by
  exact ⟨by decide, by decide, by decide⟩

/-- Claim C8 (amended): every index used by the unvisited-successor test is
at most the number of vertices discovered so far (the final DFS counter);
consequently, whenever `numVertices` strictly exceeds the number of
discovered vertices, every such access is strictly in bounds.  With
`numVertices` equal to the reachable count, an access at index
`numVertices` can occur (see the counterexample). -/
theorem dfs_access_bound (g : Nat → List Nat) (fuel entry numVertices : Nat) :
    AccLe (dfs g fuel entry initState) ∧
    ((dfs g fuel entry initState).dfIdx < numVertices →
      ∀ a ∈ (dfs g fuel entry initState).accesses, a < numVertices) := by
  have h : AccLe (dfs g fuel entry initState) := by
    refine dfs_acc_le g fuel entry initState ?_
    intro a ha
    simp [initState] at ha
  exact ⟨h, fun hlt a ha => lt_of_le_of_lt (h a ha) hlt⟩

/-- Witness for claim C8: with `numVertices = 3` strictly above the
reachable count `2` of the two-cycle, every access of the DFS is strictly
in bounds. -/
theorem dfs_access_bound_witness :
    ∀ a ∈ (dfs cycleG (3 + 1) 30 initState).accesses, a < 3 :=
  (dfs_access_bound cycleG (3 + 1) 30 3).2 (by decide)

/-- Claim C9: on indexed vertex arguments the queries `dominates` and
`dominatorsOf` leave the structure unchanged: the `operator[]` lookups find
the keys present and insert nothing, and no other member is written. -/
theorem queries_preserve_structure (d : DomFinder) (a b v aIdx bIdx vIdx : Nat)
    (hsort : SortedKeys d.vertexIndices)
    (ha : mapFind d.vertexIndices a = some aIdx)
    (hb : mapFind d.vertexIndices b = some bIdx)
    (hv : mapFind d.vertexIndices v = some vIdx)
    (hne : d.vertices ≠ []) :
    (d.dominates a b).1 = d ∧ (d.dominatorsOf v).map (·.1) = some d := by
  constructor
  · simp only [DomFinder.dominates, mapGetOrInsert_present hsort ha,
      mapGetOrInsert_present hsort hb]
    split <;> rfl
  · simp only [DomFinder.dominatorsOf, if_neg hne, mapGetOrInsert_present hsort hv]
    split <;> rfl

/-- Witness for claim C9 at the concrete chain structure. -/
theorem queries_preserve_structure_witness :
    ((DomFinder.mk [10, 11, 12, 13] [(10, 0), (11, 1), (12, 2), (13, 3)] [0, 0, 1, 2]
        [(0, [0]), (1, [1]), (2, [2])]).dominates 11 13).1 =
      DomFinder.mk [10, 11, 12, 13] [(10, 0), (11, 1), (12, 2), (13, 3)] [0, 0, 1, 2]
        [(0, [0]), (1, [1]), (2, [2])] :=
  (queries_preserve_structure _ 11 13 10 1 3 0 (by decide) (by decide) (by decide)
      (by decide) (by decide)).1

/-- Claim C10: `lengauerTarjanDominator` fails its `numVertices > 0`
assertion exactly when the vertex-count bound is zero, and succeeds for
every positive bound. -/
theorem lengauerTarjan_precondition (g : Nat → List Nat) (entry numVertices : Nat) :
    (lengauerTarjanDominator g entry numVertices = none ↔ numVertices = 0) ∧
    (0 < numVertices → (lengauerTarjanDominator g entry numVertices).isSome = true) := by
  by_cases h : 0 < numVertices
  · rw [lengauerTarjanDominator, if_pos h]
    exact ⟨iff_of_false (by simp) (by omega), fun _ => rfl⟩
  · rw [lengauerTarjanDominator, if_neg h]
    exact ⟨iff_of_true rfl (by omega), fun h2 => absurd h2 h⟩

/-- Witness for claim C10: the assertion passes at bound `4` on the chain
graph and fails at bound `0`. -/
theorem lengauerTarjan_precondition_witness :
    (lengauerTarjanDominator chainG 10 4).isSome = true ∧
    lengauerTarjanDominator chainG 10 0 = none :=
  ⟨(lengauerTarjan_precondition chainG 10 4).2 (by decide),
   (lengauerTarjan_precondition chainG 10 0).1.mpr rfl⟩

/-- Claim C5: in the reverse pass over an exact vertex count `n`, for every
reachable DFS index `w` other than `0`, the value of `semi[w]` at the end of
`w`'s iteration (the fold down to `w`) is exactly the minimum over all
predecessors `p` of `w` of `semi[eval(p)]`, with `eval` taken in the forest
state at the moment `w` is processed (the fold down to `w + 1`); in
particular the initial value `semi[w] = w` never survives as a strict
minimum, since the minimum is attained no later than at the spanning-tree
parent of `w`. -/
theorem semi_min_formula (g : Nat → List Nat) (entry n : Nat)
    (hdf : (dfs g (n + 1) entry initState).dfIdx = n)
    (w : Nat) (hw0 : 0 < w) (hwn : w < n) :
    ((((descRange n (w + 1)).foldl (solverStep n) (dfs g (n + 1) entry initState)).predecessors
          w).map
        (fun p =>
          semiD ((descRange n (w + 1)).foldl (solverStep n) (dfs g (n + 1) entry initState)).semi
            (eval n
              ((descRange n (w + 1)).foldl (solverStep n)
                (dfs g (n + 1) entry initState)).ancestor
              ((descRange n (w + 1)).foldl (solverStep n) (dfs g (n + 1) entry initState)).label
              ((descRange n (w + 1)).foldl (solverStep n) (dfs g (n + 1) entry initState)).semi
              p).2)).min?
      = some
          (semiD ((descRange n w).foldl (solverStep n) (dfs g (n + 1) entry initState)).semi
            w) := by
  set s1 := dfs g (n + 1) entry initState with hs1
  set sW := (descRange n (w + 1)).foldl (solverStep n) s1 with hsW
  have hinvW : SolveInv n (w + 1) sW := by
    rw [hsW]
    exact solve_run hdf (n - (w + 1)) (w + 1) (by omega)
  have h2 := (solverStep_inv hinvW hwn).2 hw0
  have h3 : (descRange n w).foldl (solverStep n) s1 = solverStep n sW w := by
    rw [descRange_split n w hwn, List.foldl_append, ← hsW]
    rfl
  rw [h3]
  exact h2

/-- Witness for claim C5: on the chain graph `10 → 11 → 12 → 13` with exact
count `4`, iteration `w = 1` computes `semi[1]` as the minimum over the
predecessors of `1`. -/
theorem semi_min_formula_witness :
    (dfs chainG (4 + 1) 10 initState).dfIdx = 4 ∧
    ((((descRange 4 (1 + 1)).foldl (solverStep 4) (dfs chainG (4 + 1) 10 initState)).predecessors
          1).map
        (fun p =>
          semiD ((descRange 4 (1 + 1)).foldl (solverStep 4) (dfs chainG (4 + 1) 10 initState)).semi
            (eval 4
              ((descRange 4 (1 + 1)).foldl (solverStep 4)
                (dfs chainG (4 + 1) 10 initState)).ancestor
              ((descRange 4 (1 + 1)).foldl (solverStep 4) (dfs chainG (4 + 1) 10 initState)).label
              ((descRange 4 (1 + 1)).foldl (solverStep 4) (dfs chainG (4 + 1) 10 initState)).semi
              p).2)).min?
      = some
          (semiD ((descRange 4 1).foldl (solverStep 4) (dfs chainG (4 + 1) 10 initState)).semi
            1) :=
  ⟨by decide, semi_min_formula chainG 10 4 (by decide) 1 (by decide) (by decide)⟩

/-- Claim C6: for a run with an exact vertex count, the immediate-dominator
array returned by the analysis satisfies `idom[0] = 0`, and every reachable
DFS index `i` other than `0` is assigned a value strictly smaller than `i`
(a proper predecessor of `i` in DFS order). -/
theorem idom_lt (g : Nat → List Nat) (entry n : Nat) (hn : 0 < n)
    (hdf : (dfs g (n + 1) entry initState).dfIdx = n) :
    ∃ r, lengauerTarjanDominator g entry n = some r ∧ r.2 0 = some 0 ∧
      ∀ i, i < n → 0 < i → ∃ d, r.2 i = some d ∧ d < i := by
  set s1 := dfs g (n + 1) entry initState with hs1
  have horder := solver_order hdf
  rw [← hs1] at horder
  have hltd : lengauerTarjanDominator g entry n =
      some ((descRange n 0).foldl (solverStep n) s1,
        step4 ((descRange n 0).foldl (solverStep n) s1)
          ((((List.range n).map
                ((descRange n 0).foldl (solverStep n) s1).vertices).drop 1).map
            (idxD ((descRange n 0).foldl (solverStep n) s1).vertexIndices))) := by
    simp only [lengauerTarjanDominator]
    rw [if_pos hn, ← hs1, horder]
  set s2 := (descRange n 0).foldl (solverStep n) s1 with hs2
  have hsol : SolveInv n 0 s2 := by
    rw [hs2]
    exact solve_run hdf n 0 (by omega)
  have hassigned : ∀ i, 0 < i → i < n → ∃ d, s2.idom i = some d ∧ d < i := by
    intro i h0 hi
    rcases hsol.idomSet i (Nat.zero_le i) h0 hi with h | ⟨_, h2⟩
    · exact h
    · omega
  have hframe := solve_run_frame n (descRange n 0) s1
  rw [← hs2] at hframe
  obtain ⟨hinv, _⟩ := dfs_main g (n + 1) entry initState dfsInv_init
  rw [← hs1] at hinv
  have horder2 : (((List.range n).map s2.vertices).drop 1).map (idxD s2.vertexIndices) =
      (List.range n).drop 1 := by
    rw [hframe.1, hframe.2, ← List.map_drop, List.map_map]
    have h2 : ∀ x ∈ (List.range n).drop 1,
        (idxD s1.vertexIndices ∘ s1.vertices) x = x := by
      intro x hx
      have hxn := (mem_range_drop hx).2
      have h3 := hinv.mapVert x (by omega)
      show idxD s1.vertexIndices (s1.vertices x) = x
      rw [idxD, h3]
      rfl
    rw [List.map_congr_left h2, List.map_id']
  have hmain := step4_main s2 n hassigned
    ((((List.range n).map s2.vertices).drop 1).map (idxD s2.vertexIndices))
    (by rw [horder2]; exact fun x hx => mem_range_drop hx)
  refine ⟨_, hltd, hmain.1, ?_⟩
  intro i hi h0
  exact hmain.2 i h0 hi

/-- Witness for claim C6: the analysis of the chain graph with exact count
`4` returns `idom = [0, 0, 1, 2]` with every non-entry value below its
index. -/
theorem idom_lt_witness :
    (0 < 4 ∧ (dfs chainG (4 + 1) 10 initState).dfIdx = 4) ∧
    (∃ r, lengauerTarjanDominator chainG 10 4 = some r ∧ r.2 0 = some 0 ∧
      ∀ i, i < 4 → 0 < i → ∃ d, r.2 i = some d ∧ d < i) :=
  ⟨⟨by decide, by decide⟩, idom_lt chainG 10 4 (by decide) (by decide)⟩

end Dominator
